import Mathlib

/-!
Verification development for the VisionLLM hybrid retrieval pipeline.

The definitions below are shallow embeddings of the Python sources:
  core/retrieval/retriever.py   (hybrid_search, union by id, sorting)
  core/retrieval/reranker.py    (rerank, overlap scoring)
  backend/app/routers/chat.py   (confidence scoring, low-confidence flag)
  ingestion/01_collect.py       (_fetch_with_retries, worker pipeline,
                                 _read_existing_meta)
  ingestion/utils_extract.py    (extract_markdown strategy chain)
  ingestion/utils_url.py        (normalize_url and the urllib helpers
                                 it calls)

Python floats are modelled as rationals, Python strings as Lean strings
(with character-level operations carried out on the underlying character
lists so that everything reduces in the kernel), Python sets of strings
as deduplicated lists, and fallible operations (database queries, HTTP
attempts, third-party extractors) as oracle parameters of Except type.
-/

set_option maxRecDepth 10000

/-! ## Data model: RetrievedChunk (core/retrieval/retriever.py, dataclass) -/

/-- Embedding of the RetrievedChunk dataclass of core/retrieval/retriever.py.
The float score is modelled as a rational. -/
structure RetrievedChunk where
  id : String
  url : Option String
  title : Option String
  product : Option String
  content_md : String
  score : ℚ
deriving DecidableEq

/-! ## Python string helpers shared by the embeddings

These model the CPython primitives used by the sources: str.split()
(split on whitespace runs, dropping empty pieces), str.lower()
(restricted here to ASCII letters, all characters appearing in the
sources and examples), and re.findall of word characters. -/

/-- Whitespace test of Python str.split() for the ASCII range. -/
def pyIsSpace (c : Char) : Bool :=
  c = ' ' || c = '\t' || c = '\n' || c = '\x0d' || c = '\x0b' || c = '\x0c'

/-- ASCII lowercasing of a character, as in Python str.lower() on ASCII
(code points 65-90 shift to 97-122). -/
def pyLowerChar (c : Char) : Char :=
  if 65 ≤ c.toNat ∧ c.toNat ≤ 90 then Char.ofNat (c.toNat + 32) else c

/-- ASCII lowercasing of a character list. -/
def lowerList (cs : List Char) : List Char := cs.map pyLowerChar

/-- Splitting a character list on whitespace, accumulator based so that it
reduces in the kernel. Models Python str.split() with no argument:
maximal runs of non-whitespace characters, empty pieces dropped. -/
def pySplitAux : List Char → List Char → List String
  | [], acc => if acc = [] then [] else [String.mk acc.reverse]
  | c :: cs, acc =>
    if pyIsSpace c then
      if acc = [] then pySplitAux cs [] else String.mk acc.reverse :: pySplitAux cs []
    else pySplitAux cs (c :: acc)

/-- Python s.split() on a string. -/
def pySplit (s : String) : List String := pySplitAux s.data []

/-- Python s.lower() on a string (ASCII). -/
def pyLower (s : String) : String := String.mk (lowerList s.data)

/-- Size of the Python set built from a list of strings. -/
def pySetCard (xs : List String) : Nat := xs.dedup.length

/-- Size of the intersection of the Python sets built from two lists. -/
def pyInterCard (xs ys : List String) : Nat :=
  (xs.dedup.filter (fun t => ys.contains t)).length

/-- Python (c.title or ""): None and the empty string both give "". -/
def orEmpty (o : Option String) : String := o.getD ""

/-! ## Reranker (core/retrieval/reranker.py, rerank) -/

/-- Query terms of rerank: set(t.lower() for t in query.split()),
kept as a deduplicated list. -/
def rerankQueryTerms (query : String) : List String :=
  ((pySplit query).map pyLower).dedup

/-- Per-candidate score of rerank: the token overlap between the query
terms and set(((title or "") + newline + (content_md or "")).lower().split()),
plus 0.001 times the length of (title or ""). Float literal 0.001 is the
exact rational 1/1000 here. -/
def rerankScore (qTerms : List String) (c : RetrievedChunk) : ℚ :=
  let text := orEmpty c.title ++ "\n" ++ c.content_md
  let terms := pySplit (pyLower text)
  (pyInterCard qTerms terms : ℚ) + (0.001 : ℚ) * ((orEmpty c.title).data.length : ℚ)

/-- Embedding of rerank of core/retrieval/reranker.py: stable sort of the
candidates by descending score, then the first k results. Python sorted
with reverse=True is a stable sort, and a stable sort by a total preorder
is unique, so the structurally recursive insertionSort used here returns
exactly the list Python returns. -/
def rerank (query : String) (candidates : List RetrievedChunk) (k : Nat) :
    List RetrievedChunk :=
  let qTerms := rerankQueryTerms query
  (candidates.insertionSort
    (fun a b => rerankScore qTerms b ≤ rerankScore qTerms a)).take k

/-! ## Hybrid retriever (core/retrieval/retriever.py, hybrid_search)

The store is abstracted by two oracle functions mapping the LIMIT passed
to the SQL query to either a result list or a raised exception. The
engine is abstracted by the optional engine URL: None models both an
unset DATABASE_URL and a create_engine failure. -/

/-- The limit passed to both store queries: k_each = max(1, min(50, top_k)). -/
def k_each (top_k : Nat) : Nat := max 1 (min 50 top_k)

/-- One step of the union loop of hybrid_search: a Python dict insertion
keyed by chunk id that keeps the entry with the larger score (and keeps
the existing entry on ties, the lexical bias), preserving insertion
order as CPython dicts do. -/
def insertChunk (acc : List RetrievedChunk) (r : RetrievedChunk) : List RetrievedChunk :=
  if acc.any (fun c => c.id = r.id) then
    acc.map (fun c => if c.id = r.id ∧ c.score < r.score then r else c)
  else acc ++ [r]

/-- Union of the result lists by chunk id, keeping the max score per id. -/
def unionById (rs : List RetrievedChunk) : List RetrievedChunk :=
  rs.foldl insertChunk []

/-- Stable descending sort by score, as results.sort(key=..., reverse=True);
stable sorts by the same total preorder agree, see rerank. -/
def sortByScoreDesc (rs : List RetrievedChunk) : List RetrievedChunk :=
  rs.insertionSort (fun a b => b.score ≤ a.score)

/-- Python str.startswith on whole strings. -/
def pyStartsWith (pre s : String) : Bool := pre.data.isPrefixOf s.data

/-- Embedding of hybrid_search of core/retrieval/retriever.py. engineUrl
is None when _get_engine returns None; lexQ and vecQ map the LIMIT of the
lexical and vector queries to their outcome. The lexical query is issued
outside any try block, so its exception propagates; the vector query
(including the query embedding) is wrapped in try/except and degrades to
the empty list. -/
def hybrid_search (engineUrl : Option String)
    (lexQ vecQ : Nat → Except String (List RetrievedChunk)) (top_k : Nat) :
    Except String (List RetrievedChunk) :=
  match engineUrl with
  | none => .ok []
  | some url =>
    if ¬ pyStartsWith "postgresql" url then .ok []
    else
      match lexQ (k_each top_k) with
      | .error e => .error e
      | .ok lex =>
        let vec := match vecQ (k_each top_k) with
          | .ok v => v
          | .error _ => []
        .ok ((sortByScoreDesc (unionById (lex ++ vec))).take top_k)

/-! ## Confidence scoring (backend/app/routers/chat.py, event_stream)

The RAG scoring block of event_stream computes a per-chunk overlap
ratio, the confidence score (maximum ratio, 0.0 for an empty set) and
the low-confidence flag. -/

/-- Word tokens of the chat scorer: re.findall of runs of word characters
(ASCII letters, digits, underscore). -/
def wordRunsAux : List Char → List Char → List String
  | [], acc => if acc = [] then [] else [String.mk acc.reverse]
  | c :: cs, acc =>
    if c.isAlphanum || c = '_' then wordRunsAux cs (c :: acc)
    else if acc = [] then wordRunsAux cs [] else String.mk acc.reverse :: wordRunsAux cs []

/-- Runs of word characters in a string. -/
def wordRuns (s : String) : List String := wordRunsAux s.data []

/-- The _q_terms helper of event_stream: the set of lowercased word-character
runs, kept as a deduplicated list. -/
def qTermsChat (s : String) : List String := ((wordRuns s).map pyLower).dedup

/-- The _overlap_ratio helper of event_stream: overlap between the query
terms and the terms of the chunk text, divided by max(6, number of query
terms) and capped at 1.0; zero if the query has no terms. -/
def overlapRatio (query : String) (chunkText : String) : ℚ :=
  let qTerms := qTermsChat query
  if qTerms = [] then 0
  else min 1 ((pyInterCard qTerms (qTermsChat chunkText) : ℚ) / (max 6 qTerms.length : ℚ))

/-- The scoring text of one chunk: title-or-empty, newline, content-or-empty. -/
def chunkText (c : RetrievedChunk) : String := orEmpty c.title ++ "\n" ++ c.content_md

/-- Per-chunk rerank scores of the final candidate list as computed by
event_stream. -/
def perChunkScores (query : String) (final : List RetrievedChunk) : List ℚ :=
  final.map (fun c => overlapRatio query (chunkText c))

/-- The confidence score: max(per_chunk_scores) if non-empty, else 0.0. -/
def confidenceScore (query : String) (final : List RetrievedChunk) : ℚ :=
  match perChunkScores query final with
  | [] => 0
  | s :: rest => rest.foldl max s

/-- The effective threshold: request.low_conf_threshold or 0.52, where a
missing value and the float 0.0 both fall back to 0.52. -/
def effectiveThreshold (requested : Option ℚ) : ℚ :=
  match requested with
  | none => 0.52
  | some t => if t = 0 then 0.52 else t

/-- The low-confidence flag of event_stream: confidence strictly below the
effective threshold. -/
def lowConfidence (requested : Option ℚ) (query : String)
    (final : List RetrievedChunk) : Bool :=
  confidenceScore query final < effectiveThreshold requested

/-! ## Claim-side definition for the reranker (spec section 4.9)

The specification describes a different score than the source computes;
the following definition renders the claim wording, for comparison with
rerankScore above. -/

/-- The score the claim describes: token-overlap ratio between lowercase
query terms and lowercase terms of title plus content, normalized by
max(6, number of query terms) and capped at 1.0. Stated from the claim
wording, not from the source; used only to refute the claim. -/
def claimedOverlapRatio (query : String) (c : RetrievedChunk) : ℚ :=
  let qTerms := rerankQueryTerms query
  let terms := pySplit (pyLower (orEmpty c.title ++ "\n" ++ c.content_md))
  min 1 ((pyInterCard qTerms terms : ℚ) / (max 6 qTerms.length : ℚ))

/-! ## Concrete instances used in examples and counterexamples -/

/-- Candidate of the spec example, titled for the Snowflake query. -/
def snowChunk : RetrievedChunk :=
  ⟨"1", none, some "Snowflake query optimization tips", none, "Tips for tuning.", 0⟩

/-- Candidate of the spec example, unrelated to the query. -/
def tableauChunk : RetrievedChunk :=
  ⟨"2", none, some "Unrelated Tableau dashboard", none, "", 0⟩

/-- A title of 1101 characters, long enough that 0.001 per character
outweighs one unit of token overlap in the source's score. -/
def longTitle : String := String.mk (List.replicate 1101 'x')

/-- Counterexample candidate with two overlapping terms and a 1-character
title. -/
def rerankCexA : RetrievedChunk := ⟨"A", none, some "t", none, "a b", 0⟩

/-- Counterexample candidate with one overlapping term and the long title. -/
def rerankCexB : RetrievedChunk := ⟨"B", none, some longTitle, none, "a", 0⟩

/-- A chunk with no term overlap with the queries used below. -/
def zeroOverlapChunk : RetrievedChunk :=
  ⟨"z", none, some "totally different words", none, "nothing shared here", 0⟩

/-- A chunk overlapping all six terms of the six-term query used below. -/
def highOverlapChunk : RetrievedChunk :=
  ⟨"h", none, some "alpha bravo charlie", none, "delta echo foxtrot", 0⟩

/-- Lexical result used by the hybrid-search witness: id c1, score 9/10. -/
def lexWitnessChunk : RetrievedChunk := ⟨"c1", none, none, none, "m", mkRat 9 10⟩

/-- Vector result used by the hybrid-search witness: id c1, score 3/10. -/
def vecWitnessChunk : RetrievedChunk := ⟨"c1", none, none, none, "m", mkRat 3 10⟩

/-! ## Fetch engine (ingestion/01_collect.py, _fetch_with_retries)

The HTTP client is abstracted by an oracle mapping the attempt number
(1-based) to that attempt's outcome. Wall-clock timing (elapsed_ms) is
not modelled; the asyncio.sleep calls and rate_limiter.push_delay calls
are recorded as traces so the backoff policy is observable. -/

/-- Outcome of one client.get attempt: a response (with status, the
optional Retry-After header value pre-parsed as float(ra) with a parse
failure shown as some none, body text and final URL after redirects), an
httpx.RequestError, or any other exception. -/
inductive AttemptOutcome where
  | response (status : Nat) (retryAfter : Option (Option ℚ)) (body : String) (finalUrl : String)
  | requestError (excName : String)
  | otherError (excName : String)

/-- The tuple (status, final_url, html, error) returned by
_fetch_with_retries; elapsed_ms is real time and not modelled. -/
structure FetchResult where
  status : Nat
  final_url : Option String
  html : Option String
  error : Option String
deriving DecidableEq

/-- The asyncio.sleep durations and rate_limiter.push_delay arguments
issued during one _fetch_with_retries call, in order. -/
structure FetchTrace where
  sleeps : List ℚ
  pushes : List ℚ
deriving DecidableEq

/-- The backoff before retrying after the given (1-based) attempt:
0.5 * 2 ** (attempt - 1) seconds. -/
def backoffDelay (attempt : Nat) : ℚ := (0.5 : ℚ) * 2 ^ (attempt - 1)

/-- The while loop of _fetch_with_retries. fuel is the number of attempts
still allowed (max_attempts - attempt); err and fUrl carry the mutable
error and final_url locals; sleeps and pushes accumulate the trace.
On fuel exhaustion the source returns status 0 with error or
"max_retries_exceeded" (err is only ever set to non-empty strings, so
the Python or-fallback is Option.getD here). -/
def fetchLoop (outcome : Nat → AttemptOutcome) :
    Nat → Nat → Option String → Option String → List ℚ → List ℚ →
    FetchResult × FetchTrace
  | 0, _, err, fUrl, sleeps, pushes =>
    (⟨0, fUrl, none, some (err.getD "max_retries_exceeded")⟩, ⟨sleeps, pushes⟩)
  | fuel + 1, attempt, err, fUrl, sleeps, pushes =>
    match outcome (attempt + 1) with
    | .response s ra b u =>
      if s = 429 ∨ s = 503 then
        fetchLoop outcome fuel (attempt + 1) err (some u)
          (sleeps ++ [backoffDelay (attempt + 1)])
          (pushes ++ match ra with | none => [] | some dOpt => [dOpt.getD 0])
      else if 200 ≤ s ∧ s < 300 then
        (⟨s, some u, some b, none⟩, ⟨sleeps, pushes⟩)
      else if 500 ≤ s ∧ s < 600 then
        fetchLoop outcome fuel (attempt + 1) err (some u)
          (sleeps ++ [backoffDelay (attempt + 1)]) pushes
      else
        (⟨s, some u, none, some ("http_status_" ++ toString s)⟩, ⟨sleeps, pushes⟩)
    | .requestError n =>
      fetchLoop outcome fuel (attempt + 1) (some ("request_error: " ++ n)) fUrl
        (sleeps ++ [backoffDelay (attempt + 1)]) pushes
    | .otherError n =>
      fetchLoop outcome fuel (attempt + 1) (some ("unexpected_error: " ++ n)) fUrl
        (sleeps ++ [backoffDelay (attempt + 1)]) pushes

/-- Embedding of _fetch_with_retries of ingestion/01_collect.py. -/
def fetch_with_retries (outcome : Nat → AttemptOutcome) (maxAttempts : Nat) :
    FetchResult × FetchTrace :=
  fetchLoop outcome maxAttempts 0 none none [] []

/-! ## Content extractor (ingestion/utils_extract.py)

The third-party extractors (trafilatura, readability, markdownify,
BeautifulSoup) are abstracted by an oracle environment recording each
fallible call's outcome for the given html/url input; the try/except
structure of the source is translated into matches on those outcomes. -/

/-- Outcomes of the fallible third-party calls made by extract_markdown
for one (html, url) input. trafMd: trafilatura.extract (may raise, may
return None). trafTitle: extract_metadata(...).title (raising covers
both a metadata failure and a None metadata object). docTitle:
Document(html) construction plus doc.short_title(). docMd: doc.summary,
soup cleanup and markdownify. soupTitle: the last-resort title
expression (already the empty string when the title tag is absent). -/
structure ExtractEnv where
  trafMd : Except Unit (Option String)
  trafTitle : Except Unit (Option String)
  docTitle : Except Unit String
  docMd : Except Unit String
  soupTitle : Except Unit String

/-- Newline canonicalization of _postprocess_markdown: CRLF and lone CR
both become LF. -/
def normalizeNewlines : List Char → List Char
  | [] => []
  | '\x0d' :: '\n' :: rest => '\n' :: normalizeNewlines rest
  | '\x0d' :: rest => '\n' :: normalizeNewlines rest
  | c :: rest => c :: normalizeNewlines rest

/-- Split on LF keeping empty lines, as Python str.split of a newline. -/
def splitNl : List Char → List Char → List (List Char)
  | [], acc => [acc.reverse]
  | '\n' :: rest, acc => acc.reverse :: splitNl rest []
  | c :: rest, acc => splitNl rest (c :: acc)

/-- Python rstrip on a character list. -/
def pyRstrip (l : List Char) : List Char := (l.reverse.dropWhile pyIsSpace).reverse

/-- Python strip on a character list. -/
def pyStripChars (l : List Char) : List Char :=
  ((l.dropWhile pyIsSpace).reverse.dropWhile pyIsSpace).reverse

/-- The blank-run loop of _postprocess_markdown: blank lines (strip()
empty) are kept as empty lines only while the current run is at most 2;
other lines are right-trimmed and reset the run. -/
def collapseBlank : List (List Char) → Nat → List (List Char)
  | [], _ => []
  | line :: rest, blankRun =>
    if line.all pyIsSpace then
      if blankRun + 1 ≤ 2 then [] :: collapseBlank rest (blankRun + 1)
      else collapseBlank rest (blankRun + 1)
    else pyRstrip line :: collapseBlank rest 0

/-- Pop leading and trailing empty lines. -/
def dropBlankEnds (ls : List (List Char)) : List (List Char) :=
  ((ls.dropWhile (· = [])).reverse.dropWhile (· = [])).reverse

/-- Join lines with LF. -/
def joinNl : List (List Char) → List Char
  | [] => []
  | [l] => l
  | l :: rest => l ++ '\n' :: joinNl rest

/-- Embedding of _postprocess_markdown of ingestion/utils_extract.py. -/
def _postprocess_markdown (md : String) : String :=
  String.mk (pyStripChars (joinNl (dropBlankEnds
    (collapseBlank (splitNl (normalizeNewlines md.data) []) 0))))

/-- The last-resort tail of extract_markdown: if md is an (empty) string
rather than None, the post-processed md is returned with the current
title; if md is None, the raw title tag is consulted (keeping the
current title when it is non-empty or when BeautifulSoup raises) and
empty markdown is returned. -/
def extractLastResort (env : ExtractEnv) (md : Option String) (title : String) :
    Except Unit (String × String) :=
  match md with
  | some s => .ok (_postprocess_markdown s, title)
  | none =>
    .ok ("",
      if title ≠ "" then title
      else match env.soupTitle with
        | .error _ => title
        | .ok x => x)

/-- The readability/markdownify fallback block of extract_markdown. If
Document/short_title raises, md and title are unchanged; if short_title
succeeds the title is updated (short_title or title) even when the later
markdown conversion raises. -/
def extractFallback (env : ExtractEnv) (md : Option String) (title : String) :
    Except Unit (String × String) :=
  match env.docTitle with
  | .error _ => extractLastResort env md title
  | .ok t =>
    match env.docMd with
    | .error _ => extractLastResort env md (if t = "" then title else t)
    | .ok m => .ok (_postprocess_markdown m, if t = "" then title else t)

/-- Embedding of extract_markdown of ingestion/utils_extract.py. The
Except result type records that a raised exception would propagate; the
theorems show the error case is never produced. -/
def extract_markdown (env : ExtractEnv) : Except Unit (String × String) :=
  match env.trafMd with
  | .error _ => extractFallback env none ""
  | .ok md0 =>
    let t := match env.trafTitle with
      | .error _ => ""
      | .ok t0 => t0.getD ""
    if md0.getD "" = "" then extractFallback env md0 t
    else .ok (_postprocess_markdown (md0.getD ""), t)

/-! ## URL normalization (ingestion/utils_url.py, normalize_url)

normalize_url composes CPython urllib.parse primitives; those are
modelled here over character lists, following the CPython 3.11 sources:
urlsplit (without the control-character sanitization shims, the IPv6
bracket validation and the NFKC netloc check, which raise or rewrite
only on hostile inputs), urlunsplit, parse_qsl with
keep_blank_values=True, urlencode with its quote_plus default, and the
percent codec (UTF-8 with errors=replace; the number of replacement
characters emitted for malformed byte runs is approximated, which only
matters for inputs containing invalid percent sequences). -/

/-- Splits a list at the first occurrence of a character: gives the part
before it and, when found, the part after it. -/
def breakAt (ch : Char) : List Char → List Char × Option (List Char)
  | [] => ([], none)
  | c :: cs =>
    if c = ch then ([], some cs)
    else
      match breakAt ch cs with
      | (pre, post) => (c :: pre, post)

/-- Splits at the last occurrence of a character, as str.rsplit(ch, 1). -/
def breakAtLast (ch : Char) (l : List Char) : Option (List Char × List Char) :=
  match breakAt ch l.reverse with
  | (_, none) => none
  | (revPort, some revHost) => some (revHost.reverse, revPort.reverse)

/-- The five components produced by urllib.parse.urlsplit. -/
structure SplitResult where
  scheme : List Char
  netloc : List Char
  path : List Char
  query : List Char
  fragment : List Char
deriving DecidableEq

/-- An ASCII letter, as Python isascii() and isalpha() combined. -/
def isAsciiAlpha (c : Char) : Bool :=
  (65 ≤ c.toNat ∧ c.toNat ≤ 90) || (97 ≤ c.toNat ∧ c.toNat ≤ 122)

/-- Characters allowed after the first character of a URL scheme:
ASCII letters, digits, plus, minus, dot. -/
def isSchemeChar (c : Char) : Bool :=
  isAsciiAlpha c || (48 ≤ c.toNat ∧ c.toNat ≤ 57) ||
    c.toNat = 43 || c.toNat = 45 || c.toNat = 46

/-- A character ending the netloc in _splitnetloc: slash, question mark
or hash. -/
def isNetlocDelim (c : Char) : Bool :=
  c.toNat = 47 || c.toNat = 63 || c.toNat = 35

/-- Scheme extraction of urlsplit: the text before the first colon when
it is non-empty, starts with an ASCII letter and consists of scheme
characters; the scheme is lowercased and the rest follows the colon. -/
def splitScheme (x : List Char) : List Char × List Char :=
  match breakAt ':' x with
  | (pre, some post) =>
    match pre with
    | [] => ([], x)
    | c0 :: cs =>
      if isAsciiAlpha c0 ∧ cs.all isSchemeChar then (lowerList (c0 :: cs), post)
      else ([], x)
  | (_, none) => ([], x)

/-- Netloc extraction of urlsplit: after a leading double slash, up to
the first slash, question mark or hash (CPython _splitnetloc). -/
def splitNetloc (r : List Char) : List Char × List Char :=
  match r with
  | '/' :: '/' :: rest =>
    (rest.takeWhile (fun c => !isNetlocDelim c), rest.dropWhile (fun c => !isNetlocDelim c))
  | _ => ([], r)

/-- Fragment extraction: the text after the first hash. -/
def splitFragment (r : List Char) : List Char × List Char :=
  match breakAt '#' r with
  | (pre, some post) => (pre, post)
  | (pre, none) => (pre, [])

/-- Query extraction: the text after the first question mark. -/
def splitQuery (r : List Char) : List Char × List Char :=
  match breakAt '?' r with
  | (pre, some post) => (pre, post)
  | (pre, none) => (pre, [])

/-- Embedding of urllib.parse.urlsplit (CPython 3.11): scheme, then
netloc, then fragment, then query. -/
def urlsplit (x : List Char) : SplitResult :=
  let sr := splitScheme x
  let nr := splitNetloc sr.2
  let rf := splitFragment nr.2
  let pq := splitQuery rf.1
  ⟨sr.1, nr.1, pq.1, pq.2, rf.2⟩

/-- The uses_netloc scheme list of urllib.parse (CPython 3.11). -/
def usesNetloc : List (List Char) :=
  (["", "ftp", "http", "gopher", "nntp", "telnet", "imap", "wais", "file",
    "mms", "https", "shttp", "snews", "prospero", "rtsp", "rtsps", "rtspu",
    "rsync", "svn", "svn+ssh", "sftp", "nfs", "git", "git+ssh", "ws",
    "wss"]).map String.data

/-- Embedding of urllib.parse.urlunsplit (CPython 3.11). -/
def urlunsplit (r : SplitResult) : List Char :=
  let url := r.path
  let url :=
    if r.netloc ≠ [] ∨ (r.scheme ≠ [] ∧ r.scheme ∈ usesNetloc ∧ url.take 2 ≠ ['/', '/']) then
      let url' := if url ≠ [] ∧ url.take 1 ≠ ['/'] then '/' :: url else url
      '/' :: '/' :: (r.netloc ++ url')
    else url
  let url := if r.scheme ≠ [] then r.scheme ++ ':' :: url else url
  let url := if r.query ≠ [] then url ++ '?' :: r.query else url
  if r.fragment ≠ [] then url ++ '#' :: r.fragment else url

/-! ### Percent codec: quote_plus, unquote_plus, UTF-8 -/

/-- Hex digit value, accepting both cases, as CPython _hextobyte. -/
def hexVal? (c : Char) : Option Nat :=
  if 48 ≤ c.toNat ∧ c.toNat ≤ 57 then some (c.toNat - 48)
  else if 65 ≤ c.toNat ∧ c.toNat ≤ 70 then some (c.toNat - 55)
  else if 97 ≤ c.toNat ∧ c.toNat ≤ 102 then some (c.toNat - 87)
  else none

/-- Uppercase hex digit of a value below 16, as used by quote. -/
def hexDigitUpper (n : Nat) : Char :=
  if n < 10 then Char.ofNat ('0'.toNat + n) else Char.ofNat ('A'.toNat + (n - 10))

/-- UTF-8 encoding of a Unicode code point as byte values. -/
def utf8Encode (n : Nat) : List Nat :=
  if n < 0x80 then [n]
  else if n < 0x800 then [0xC0 + n / 64, 0x80 + n % 64]
  else if n < 0x10000 then [0xE0 + n / 4096, 0x80 + (n / 64) % 64, 0x80 + n % 64]
  else [0xF0 + n / 262144, 0x80 + (n / 4096) % 64, 0x80 + (n / 64) % 64, 0x80 + n % 64]

/-- The U+FFFD replacement character. -/
def replChar : Char := Char.ofNat 0xFFFD

/-- A UTF-8 continuation byte. -/
def isCont (x : Nat) : Prop := 0x80 ≤ x ∧ x < 0xC0

instance (x : Nat) : Decidable (isCont x) := by unfold isCont; infer_instance

/-- Valid first continuation byte after a three-byte starter b, with the
narrowed ranges after E0 (no overlong) and ED (no surrogates). -/
def cont1ok3 (b b1 : Nat) : Prop :=
  isCont b1 ∧ (b = 0xE0 → 0xA0 ≤ b1) ∧ (b = 0xED → b1 < 0xA0)

instance (b b1 : Nat) : Decidable (cont1ok3 b b1) := by unfold cont1ok3; infer_instance

/-- Valid first continuation byte after a four-byte starter b, with the
narrowed ranges after F0 (no overlong) and F4 (no values past 10FFFF). -/
def cont1ok4 (b b1 : Nat) : Prop :=
  isCont b1 ∧ (b = 0xF0 → 0x90 ≤ b1) ∧ (b = 0xF4 → b1 < 0x90)

instance (b b1 : Nat) : Decidable (cont1ok4 b b1) := by unfold cont1ok4; infer_instance

/-- UTF-8 decoding with replacement on malformed input, as
bytes.decode("utf-8", errors="replace") does: overlong encodings,
surrogates and out-of-range values are rejected, and each maximal
subpart of an ill-formed sequence yields one U+FFFD (so a truncated
but so-far-valid prefix at end of input is a single replacement
character, while an invalid continuation byte restarts decoding at
that byte). -/
def utf8DecodeReplace : List Nat → List Char
  | [] => []
  | [b] =>
    if b < 0x80 then [Char.ofNat b] else [replChar]
  | [b, b1] =>
    if b < 0x80 then Char.ofNat b :: utf8DecodeReplace [b1]
    else if 0xC2 ≤ b ∧ b < 0xE0 then
      if isCont b1 then [Char.ofNat ((b - 0xC0) * 64 + (b1 - 0x80))]
      else replChar :: utf8DecodeReplace [b1]
    else if 0xE0 ≤ b ∧ b < 0xF0 then
      if cont1ok3 b b1 then [replChar]
      else replChar :: utf8DecodeReplace [b1]
    else if 0xF0 ≤ b ∧ b < 0xF5 then
      if cont1ok4 b b1 then [replChar]
      else replChar :: utf8DecodeReplace [b1]
    else replChar :: utf8DecodeReplace [b1]
  | [b, b1, b2] =>
    if b < 0x80 then Char.ofNat b :: utf8DecodeReplace [b1, b2]
    else if 0xC2 ≤ b ∧ b < 0xE0 then
      if isCont b1 then
        Char.ofNat ((b - 0xC0) * 64 + (b1 - 0x80)) :: utf8DecodeReplace [b2]
      else replChar :: utf8DecodeReplace [b1, b2]
    else if 0xE0 ≤ b ∧ b < 0xF0 then
      if cont1ok3 b b1 then
        if isCont b2 then
          [Char.ofNat ((b - 0xE0) * 4096 + (b1 - 0x80) * 64 + (b2 - 0x80))]
        else replChar :: utf8DecodeReplace [b2]
      else replChar :: utf8DecodeReplace [b1, b2]
    else if 0xF0 ≤ b ∧ b < 0xF5 then
      if cont1ok4 b b1 then
        if isCont b2 then [replChar]
        else replChar :: utf8DecodeReplace [b2]
      else replChar :: utf8DecodeReplace [b1, b2]
    else replChar :: utf8DecodeReplace [b1, b2]
  | b :: b1 :: b2 :: b3 :: r =>
    if b < 0x80 then Char.ofNat b :: utf8DecodeReplace (b1 :: b2 :: b3 :: r)
    else if 0xC2 ≤ b ∧ b < 0xE0 then
      if isCont b1 then
        Char.ofNat ((b - 0xC0) * 64 + (b1 - 0x80)) :: utf8DecodeReplace (b2 :: b3 :: r)
      else replChar :: utf8DecodeReplace (b1 :: b2 :: b3 :: r)
    else if 0xE0 ≤ b ∧ b < 0xF0 then
      if cont1ok3 b b1 then
        if isCont b2 then
          Char.ofNat ((b - 0xE0) * 4096 + (b1 - 0x80) * 64 + (b2 - 0x80)) ::
            utf8DecodeReplace (b3 :: r)
        else replChar :: utf8DecodeReplace (b2 :: b3 :: r)
      else replChar :: utf8DecodeReplace (b1 :: b2 :: b3 :: r)
    else if 0xF0 ≤ b ∧ b < 0xF5 then
      if cont1ok4 b b1 then
        if isCont b2 then
          if isCont b3 then
            Char.ofNat ((b - 0xF0) * 262144 + (b1 - 0x80) * 4096 + (b2 - 0x80) * 64 +
              (b3 - 0x80)) :: utf8DecodeReplace r
          else replChar :: utf8DecodeReplace (b3 :: r)
        else replChar :: utf8DecodeReplace (b2 :: b3 :: r)
      else replChar :: utf8DecodeReplace (b1 :: b2 :: b3 :: r)
    else replChar :: utf8DecodeReplace (b1 :: b2 :: b3 :: r)

/-- One item of the percent-decoder input: a literal character or a byte
decoded from a %XX escape. -/
inductive UQItem where
  | lit (c : Char)
  | byte (b : Nat)

/-- Scanning phase of unquote: valid %XX pairs become bytes, anything
else stays literal. -/
def unquoteItems : List Char → List UQItem
  | [] => []
  | [c] => if c = '%' then [.lit '%'] else [.lit c]
  | [c, h1] =>
    if c = '%' then .lit '%' :: unquoteItems [h1] else .lit c :: unquoteItems [h1]
  | c :: h1 :: h2 :: rest =>
    if c = '%' then
      match hexVal? h1, hexVal? h2 with
      | some a, some b => .byte (a * 16 + b) :: unquoteItems rest
      | _, _ => .lit '%' :: unquoteItems (h1 :: h2 :: rest)
    else .lit c :: unquoteItems (h1 :: h2 :: rest)

/-- Assembly phase of unquote: maximal byte runs are decoded as UTF-8
with replacement, literals pass through. -/
def decodeItems : List UQItem → List Nat → List Char
  | [], buf => utf8DecodeReplace buf
  | .byte b :: rest, buf => decodeItems rest (buf ++ [b])
  | .lit c :: rest, buf => utf8DecodeReplace buf ++ c :: decodeItems rest []

/-- Embedding of urllib.parse.unquote_plus on character lists: plus
signs become spaces, then percent escapes are decoded. -/
def unquote_plus (s : List Char) : List Char :=
  decodeItems (unquoteItems (s.map (fun c => if c = '+' then ' ' else c))) []

/-- The always-safe characters of urllib.parse.quote: ASCII letters,
digits, underscore, dot, minus, tilde. -/
def alwaysSafe (c : Char) : Bool :=
  isAsciiAlpha c || (48 ≤ c.toNat ∧ c.toNat ≤ 57) ||
    c.toNat = 95 || c.toNat = 46 || c.toNat = 45 || c.toNat = 126

/-- quote_plus on one character: safe characters pass, space becomes a
plus, everything else is percent-encoded from its UTF-8 bytes with
uppercase hex. -/
def quoteChar (c : Char) : List Char :=
  if alwaysSafe c then [c]
  else if c = ' ' then ['+']
  else (utf8Encode c.toNat).flatMap (fun b => ['%', hexDigitUpper (b / 16), hexDigitUpper (b % 16)])

/-- Embedding of urllib.parse.quote_plus on character lists. -/
def quote_plus (s : List Char) : List Char := s.flatMap quoteChar

/-- Splits a list on every occurrence of a character (empty pieces kept),
as str.split(ch). -/
def splitOnChar (ch : Char) : List Char → List Char → List (List Char)
  | [], acc => [acc.reverse]
  | c :: cs, acc =>
    if c = ch then acc.reverse :: splitOnChar ch cs []
    else splitOnChar ch cs (c :: acc)

/-- Embedding of urllib.parse.parse_qsl with keep_blank_values=True and
the default ampersand separator: empty pairs are dropped, a pair without
an equals sign keeps a blank value, names and values are unquoted. -/
def parse_qsl (q : List Char) : List (List Char × List Char) :=
  if q = [] then []
  else
    (splitOnChar '&' q []).filterMap (fun seg =>
      if seg = [] then none
      else some (match breakAt '=' seg with
        | (name, some value) => (unquote_plus name, unquote_plus value)
        | (name, none) => (unquote_plus name, [])))

/-- Joining with ampersands, the final step of urlencode. -/
def joinAmp : List (List Char) → List Char
  | [] => []
  | [l] => l
  | l :: rest => l ++ '&' :: joinAmp rest

/-- Embedding of urllib.parse.urlencode with its default quote_plus. -/
def urlencode (items : List (List Char × List Char)) : List Char :=
  joinAmp (items.map (fun kv => quote_plus kv.1 ++ '=' :: quote_plus kv.2))

/-! ### normalize_url itself -/

/-- Strict lexicographic comparison of character lists by code point, as
Python string comparison. -/
def charListLt : List Char → List Char → Bool
  | [], [] => false
  | [], _ :: _ => true
  | _ :: _, [] => false
  | a :: as, b :: bs =>
    if a < b then true else if b < a then false else charListLt as bs

/-- Non-strict lexicographic comparison of (name, value) pairs, as
Python tuple comparison; list.sort uses it ascending. -/
def pairLe (x y : List Char × List Char) : Bool :=
  if x.1 = y.1 then (charListLt x.2 y.2 || decide (x.2 = y.2)) else charListLt x.1 y.1

/-- The _TRACKING_PARAMS set of ingestion/utils_url.py. -/
def _TRACKING_PARAMS : List (List Char) :=
  (["utm_source", "utm_medium", "utm_campaign", "utm_term", "utm_content",
    "utm_id", "gclid", "fbclid", "msclkid", "mc_cid", "mc_eid"]).map String.data

/-- The query-parameter filter of normalize_url: drop keys in
_TRACKING_PARAMS and keys starting with utm_. -/
def keepParam (k : List Char) : Bool :=
  !(_TRACKING_PARAMS.contains k) && !(("utm_".data).isPrefixOf k)

/-- Embedding of _strip_default_port of ingestion/utils_url.py. -/
def stripDefaultPort (scheme netloc : List Char) : List Char :=
  match breakAtLast ':' netloc with
  | none => netloc
  | some (host, port) =>
    if (scheme = "http".data ∧ port = "80".data) ∨
        (scheme = "https".data ∧ port = "443".data) then host
    else netloc

/-- The component-level normalization of normalize_url: lowercase scheme
and netloc, strip default ports, default the path to a single slash and
strip one trailing slash except at the root, parse the query, drop
tracking parameters, sort the rest and re-encode; the fragment is
dropped. -/
def normalizeSplit (x : List Char) : SplitResult :=
  let P := urlsplit x
  let scheme := lowerList P.scheme
  let netloc := stripDefaultPort scheme (lowerList P.netloc)
  let path0 := if P.path = [] then ['/'] else P.path
  let path := if path0 ≠ ['/'] ∧ path0.getLast? = some '/' then path0.dropLast else path0
  let items := List.insertionSort (fun a b => pairLe a b = true)
    ((parse_qsl P.query).filter (fun kv => keepParam kv.1))
  ⟨scheme, netloc, path, urlencode items, []⟩

/-- Embedding of normalize_url of ingestion/utils_url.py. -/
def normalize_url (url : String) : String :=
  String.mk (urlunsplit (normalizeSplit url.data))

/-- Claim-side definition (from the specification text): the tracking
parameters the spec documents besides the utm_ wildcard. -/
def documentedTrackers : List (List Char) :=
  (["gclid", "fbclid", "msclkid", "mc_cid", "mc_eid"]).map String.data

/-! ### The collector of ingestion/01_collect.py: ledger, resume, dedup -/

/-- One line of the ingestion ledger (the meta jsonl) of 01_collect.py,
keeping the fields the resumability and dedup logic reads back; hashes,
file paths, timestamps, product, version and token estimates are write-only
and omitted. A record with a missing url is modelled with the empty string,
a missing or empty canonical_url as none. -/
structure FetchRecord where
  url : String
  status : Nat
  final_url : Option String
  canonical_url : Option String
  title : String
  error : Option String
deriving DecidableEq

/-- _read_existing_meta of 01_collect.py: the seen_urls set, built as the
list of normalized urls of truthy-url status-200 records, each followed by
the normalized canonical of any record that declares one (Python keeps a
set; only membership is ever used). -/
def read_existing_meta (prior : List FetchRecord) : List String :=
  prior.foldl (fun acc rec =>
    let acc1 := if rec.url ≠ "" ∧ rec.status = 200
      then acc ++ [normalize_url rec.url] else acc
    match rec.canonical_url with
    | some c => acc1 ++ [normalize_url c]
    | none => acc1) []

/-- The per-URL environment one worker of process_product observes: the
robots verdict (after the exception-to-True fallback), the fetch outcome of
_fetch_with_retries, the canonical declared by the page (none when missing
or empty) and the extract_markdown result. -/
structure PageEnv where
  robotsAllowed : Bool
  fetchStatus : Nat
  fetchFinal : Option String
  fetchHtml : Option String
  fetchError : Option String
  canonical : Option String
  extractedMd : String
  extractedTitle : String

/-- One worker of process_product: returns whether a network request was
issued, the ledger records appended, and the normalized canonicals added to
seen_canonical, in source order: resume skip, robots check, fetch, non-200
record, canonical dedup (only for a declared canonical), index-like skip
(word runs approximate the ASCII core of the regex for word characters),
then the success record. Logging and the raw/markdown file writes carry no
further information and are not modelled. -/
def worker (resume : Bool) (seenSuccess seenCanonical : List String)
    (env : PageEnv) (u : String) : Bool × List FetchRecord × List String :=
  if resume && seenSuccess.contains (normalize_url u) then (false, [], [])
  else if !env.robotsAllowed then
    (false, [⟨u, 0, none, none, "", some "robots-disallow"⟩], [])
  else
    let htmlOk := match env.fetchHtml with
      | some h => !(h == "")
      | none => false
    if env.fetchStatus ≠ 200 ∨ htmlOk = false then
      (true, [⟨u, env.fetchStatus, env.fetchFinal, none, "", env.fetchError⟩], [])
    else
      let dupe := match env.canonical with
        | some c => seenCanonical.contains (normalize_url c)
        | none => false
      if dupe then (true, [], [])
      else
        let md := env.extractedMd
        if md ≠ "" ∧ (wordRuns md).length < 60 ∧
            (md.data.filter (fun c => c = '[')).length > 10 then
          (true, [], [])
        else
          (true,
            [⟨u, 200, env.fetchFinal, env.canonical, env.extractedTitle, none⟩],
            match env.canonical with
            | some c => [normalize_url c]
            | none => [])

/-- The worker loop of process_product, modelled sequentially (the
per-domain semaphores serialize same-domain workers; the claims below do
not depend on interleaving): accumulates appended records, the growing
seen_canonical set, and the urls for which a network request was issued. -/
def runWorkers (resume : Bool) (seenSuccess : List String)
    (envs : String → PageEnv) (urls : List String) (canon0 : List String) :
    List FetchRecord × List String × List String :=
  urls.foldl (fun acc u =>
    let w := worker resume seenSuccess acc.2.1 (envs u) u
    (acc.1 ++ w.2.1, acc.2.1 ++ w.2.2, acc.2.2 ++ (if w.1 then [u] else [])))
    ([], canon0, [])

/-- process_product after URL discovery and filtering: reads the prior
ledger, seeds seen_canonical with the normalized seen_success set, runs the
workers, and appends their records to the ledger (the meta file is opened
in append mode). Returns the final ledger and the fetched urls. -/
def process_product (resume : Bool) (prior : List FetchRecord)
    (envs : String → PageEnv) (urls : List String) :
    List FetchRecord × List String :=
  let seenSuccess := read_existing_meta prior
  let r := runWorkers resume seenSuccess envs urls (seenSuccess.map normalize_url)
  (prior ++ r.1, r.2.2)

/-- Concrete prior ledger for the collector theorems: one successful
record. -/
def c2prior : List FetchRecord := [⟨"http://h/p", 200, none, none, "", none⟩]

/-- Concrete environment: a successful fetch of a page that declares no
canonical and extracts to a small non-index page. -/
def c2envs : String → PageEnv :=
  fun _ => ⟨true, 200, none, some "<html>x</html>", none, none, "hello world", "T"⟩

/-! # Theorems

Shared helper lemmas first, then one theorem per claim (with witnesses
and counterexamples where required). -/

/-! ## Helper lemmas: folded maxima of rational lists -/

theorem le_foldl_max (l : List ℚ) (s : ℚ) : s ≤ l.foldl max s := by
  induction l generalizing s with
  | nil => exact le_refl s
  | cons a t ih => exact le_trans (le_max_left s a) (ih (max s a))

theorem mem_le_foldl_max (l : List ℚ) (s : ℚ) : ∀ x ∈ l, x ≤ l.foldl max s := by
  induction l generalizing s with
  | nil => intro x hx; cases hx
  | cons a t ih =>
    intro x hx
    rcases List.mem_cons.mp hx with h | h
    · subst h
      exact le_trans (le_max_right s x) (le_foldl_max t (max s x))
    · exact ih (max s a) x h

theorem foldl_max_cases (l : List ℚ) (s : ℚ) : l.foldl max s = s ∨ l.foldl max s ∈ l := by
  induction l generalizing s with
  | nil => exact Or.inl rfl
  | cons a t ih =>
    rcases ih (max s a) with h | h
    · rcases max_choice s a with hm | hm
      · exact Or.inl (by simpa [hm] using h)
      · exact Or.inr (by simp [List.foldl_cons]; rw [h, hm]; exact Or.inl rfl)
    · exact Or.inr (List.mem_cons_of_mem a h)

/-! ## Helper lemmas: the confidence score is the maximum ratio -/

theorem score_le_confidence (q : String) (final : List RetrievedChunk) :
    ∀ c ∈ final, overlapRatio q (chunkText c) ≤ confidenceScore q final := by
  intro c hc
  unfold confidenceScore
  cases hfin : final with
  | nil => subst hfin; cases hc
  | cons d rest =>
    subst hfin
    have hmem : overlapRatio q (chunkText c) ∈ perChunkScores q (d :: rest) :=
      List.mem_map_of_mem _ hc
    rw [show perChunkScores q (d :: rest) =
        overlapRatio q (chunkText d) :: perChunkScores q rest from rfl] at hmem ⊢
    rcases List.mem_cons.mp hmem with h | h
    · rw [h]; exact le_foldl_max _ _
    · exact mem_le_foldl_max _ _ _ h

theorem confidence_mem (q : String) (final : List RetrievedChunk) (h : final ≠ []) :
    ∃ c ∈ final, confidenceScore q final = overlapRatio q (chunkText c) := by
  cases hfin : final with
  | nil => exact absurd hfin h
  | cons d rest =>
    subst hfin
    unfold confidenceScore
    rw [show perChunkScores q (d :: rest) =
        overlapRatio q (chunkText d) :: perChunkScores q rest from rfl]
    rcases foldl_max_cases (perChunkScores q rest) (overlapRatio q (chunkText d)) with hc | hc
    · exact ⟨d, List.mem_cons_self d rest, hc⟩
    · rcases List.mem_map.mp hc with ⟨c, hcmem, hceq⟩
      exact ⟨c, List.mem_cons_of_mem d hcmem, hceq.symm⟩

/-- C10: for every query, candidate list and k, rerank returns exactly
min(k, number of candidates) elements, each an unmodified input candidate,
and the output is a prefix (take k) of a permutation of the input. -/
theorem rerank_returns_prefix_of_permutation :
    ∀ (query : String) (cs : List RetrievedChunk) (k : Nat),
      (rerank query cs k).length = min k cs.length ∧
      (∀ c ∈ rerank query cs k, c ∈ cs) ∧
      ∃ l, cs.Perm l ∧ rerank query cs k = l.take k := by
  intro q cs k
  have hperm := List.perm_insertionSort
    (fun a b => rerankScore (rerankQueryTerms q) b ≤ rerankScore (rerankQueryTerms q) a) cs
  refine ⟨?_, ?_, ?_⟩
  · show (List.take k _).length = min k cs.length
    rw [List.length_take, hperm.length_eq]
  · intro c hc
    exact hperm.subset (List.take_subset _ _ hc)
  · exact ⟨_, hperm.symm, rfl⟩

/-- C3 (amended): rerank orders candidates by the source's score, namely
raw token overlap plus 0.001 times the title length (descending, stable),
and returns the first k; on the spec example the Snowflake-titled chunk
is returned first. -/
theorem rerank_ordered_by_source_score :
    (∀ (query : String) (cs : List RetrievedChunk) (k : Nat),
      ∃ l, cs.Perm l ∧ rerank query cs k = l.take k ∧
        l.Sorted (fun a b =>
          rerankScore (rerankQueryTerms query) b ≤ rerankScore (rerankQueryTerms query) a)) ∧
    rerank "optimize snowflake query" [snowChunk, tableauChunk] 1 = [snowChunk] := by
  constructor
  · intro q cs k
    haveI hTot : IsTotal RetrievedChunk (fun a b =>
        rerankScore (rerankQueryTerms q) b ≤ rerankScore (rerankQueryTerms q) a) :=
      ⟨fun a b => le_total _ _⟩
    haveI hTrans : IsTrans RetrievedChunk (fun a b =>
        rerankScore (rerankQueryTerms q) b ≤ rerankScore (rerankQueryTerms q) a) :=
      ⟨fun _ _ _ h1 h2 => le_trans h2 h1⟩
    exact ⟨_, (List.perm_insertionSort _ cs).symm, rfl, List.sorted_insertionSort _ cs⟩
  · have h1 : pyInterCard (rerankQueryTerms "optimize snowflake query")
        (pySplit (pyLower (orEmpty snowChunk.title ++ "\n" ++ snowChunk.content_md))) = 2 := by
      decide
    have h2 : pyInterCard (rerankQueryTerms "optimize snowflake query")
        (pySplit (pyLower (orEmpty tableauChunk.title ++ "\n" ++ tableauChunk.content_md))) = 0 := by
      decide
    have l1 : (orEmpty snowChunk.title).data.length = 33 := by decide
    have l2 : (orEmpty tableauChunk.title).data.length = 27 := by decide
    simp only [rerank, List.insertionSort, List.orderedInsert, rerankScore, h1, h2, l1, l2]
    norm_num

/-- C3 (counterexample): rerank does not order candidates by the claimed
capped normalized overlap ratio with title length only breaking ties:
with k = 1 it returns the candidate whose claimed ratio is strictly
smaller, because the 0.001-per-character title term outweighs a full
unit of token overlap once the title exceeds 1000 characters. -/
theorem rerank_ratio_order_counterexample :
    rerank "a b c" [rerankCexA, rerankCexB] 1 = [rerankCexB] ∧
    claimedOverlapRatio "a b c" rerankCexB < claimedOverlapRatio "a b c" rerankCexA := by
  have h1 : pyInterCard (rerankQueryTerms "a b c")
      (pySplit (pyLower (orEmpty rerankCexA.title ++ "\n" ++ rerankCexA.content_md))) = 2 := by
    decide
  have h2 : pyInterCard (rerankQueryTerms "a b c")
      (pySplit (pyLower (orEmpty rerankCexB.title ++ "\n" ++ rerankCexB.content_md))) = 1 := by
    decide
  have l1 : (orEmpty rerankCexA.title).data.length = 1 := by decide
  have l2 : (orEmpty rerankCexB.title).data.length = 1101 := by decide
  have hq : (rerankQueryTerms "a b c").length = 3 := by decide
  constructor
  · simp only [rerank, List.insertionSort, List.orderedInsert, rerankScore, h1, h2, l1, l2]
    norm_num
  · simp only [claimedOverlapRatio, rerankScore, h1, h2, hq]
    norm_num

/-- C5: the confidence score is the maximum per-chunk overlap ratio
(zero for an empty candidate set), the low-confidence flag is set exactly
when the score is strictly below the effective threshold, the default
threshold is 0.52, an all-zero-overlap candidate set is flagged, and a
set containing a chunk with ratio above 0.8 is not flagged. -/
theorem confidence_score_contract :
    (∀ (q : String) (final : List RetrievedChunk), final ≠ [] →
      (∀ c ∈ final, overlapRatio q (chunkText c) ≤ confidenceScore q final) ∧
      (∃ c ∈ final, confidenceScore q final = overlapRatio q (chunkText c))) ∧
    effectiveThreshold none = 0.52 ∧
    (∀ (req : Option ℚ) (q : String) (final : List RetrievedChunk),
      lowConfidence req q final = true ↔ confidenceScore q final < effectiveThreshold req) ∧
    (∀ (q : String) (final : List RetrievedChunk),
      (∀ c ∈ final, overlapRatio q (chunkText c) = 0) → lowConfidence none q final = true) ∧
    (∀ (q : String) (final : List RetrievedChunk) (c : RetrievedChunk),
      c ∈ final → (0.8 : ℚ) < overlapRatio q (chunkText c) →
      lowConfidence none q final = false) := by
  refine ⟨?_, rfl, ?_, ?_, ?_⟩
  · intro q final h
    exact ⟨score_le_confidence q final, confidence_mem q final h⟩
  · intro req q final
    simp [lowConfidence]
  · intro q final hall
    have hconf : confidenceScore q final = 0 := by
      cases hfin : final with
      | nil => rfl
      | cons d rest =>
        subst hfin
        rcases confidence_mem q (d :: rest) (by simp) with ⟨c, hc, hceq⟩
        rw [hceq, hall c hc]
    simp only [lowConfidence, hconf, effectiveThreshold]
    norm_num
  · intro q final c hc hgt
    have hle := score_le_confidence q final c hc
    have : ¬ confidenceScore q final < effectiveThreshold none := by
      simp only [effectiveThreshold]
      push_neg
      calc (0.52 : ℚ) ≤ 0.8 := by norm_num
        _ ≤ overlapRatio q (chunkText c) := le_of_lt hgt
        _ ≤ confidenceScore q final := hle
    simp [lowConfidence, this]

/-- Witness for C5 at concrete inputs: a two-term query against a chunk
sharing no term is flagged low-confidence, and a six-term query against a
chunk sharing all six terms (ratio 1 over the default threshold 0.52) is
not flagged. -/
theorem confidence_score_contract_witness :
    lowConfidence none "alpha bravo" [zeroOverlapChunk] = true ∧
    lowConfidence none "alpha bravo charlie delta echo foxtrot" [highOverlapChunk] = false := by
  constructor
  · apply confidence_score_contract.2.2.2.1
    intro c hc
    have hc' : c = zeroOverlapChunk := by
      simpa using hc
    subst hc'
    have h0 : pyInterCard (qTermsChat "alpha bravo")
        (qTermsChat (chunkText zeroOverlapChunk)) = 0 := by decide
    have hne : qTermsChat "alpha bravo" ≠ [] := by decide
    simp only [overlapRatio, h0, if_neg hne]
    norm_num
  · apply confidence_score_contract.2.2.2.2 _ _ highOverlapChunk (by simp)
    have h6 : pyInterCard (qTermsChat "alpha bravo charlie delta echo foxtrot")
        (qTermsChat (chunkText highOverlapChunk)) = 6 := by decide
    have hlen : (qTermsChat "alpha bravo charlie delta echo foxtrot").length = 6 := by decide
    have hne : qTermsChat "alpha bravo charlie delta echo foxtrot" ≠ [] := by decide
    simp only [overlapRatio, h6, hlen, if_neg hne]
    norm_num

/-! ## Helper lemmas: the union-by-id dict loop of hybrid_search -/

theorem insertChunk_cases {acc : List RetrievedChunk} {r c : RetrievedChunk}
    (h : c ∈ insertChunk acc r) : c ∈ acc ∨ c = r := by
  unfold insertChunk at h
  by_cases hany : acc.any (fun c => c.id = r.id)
  · rw [if_pos hany] at h
    rcases List.mem_map.mp h with ⟨x, hx, hxeq⟩
    by_cases hcond : x.id = r.id ∧ x.score < r.score
    · rw [if_pos hcond] at hxeq; exact Or.inr hxeq.symm
    · rw [if_neg hcond] at hxeq; exact Or.inl (hxeq ▸ hx)
  · rw [if_neg hany] at h
    rcases List.mem_append.mp h with hx | hx
    · exact Or.inl hx
    · exact Or.inr (List.mem_singleton.mp hx)

theorem insertChunk_ids_nodup {acc : List RetrievedChunk} {r : RetrievedChunk}
    (h : (acc.map (fun c => c.id)).Nodup) :
    ((insertChunk acc r).map (fun c => c.id)).Nodup := by
  unfold insertChunk
  by_cases hany : acc.any (fun c => c.id = r.id)
  · rw [if_pos hany]
    have : ((acc.map (fun c => if c.id = r.id ∧ c.score < r.score then r else c)).map
        (fun c => c.id)) = acc.map (fun c => c.id) := by
      rw [List.map_map]
      apply List.map_congr_left
      intro x _
      by_cases hcond : x.id = r.id ∧ x.score < r.score
      · simp [hcond, hcond.1]
      · simp [hcond]
    rw [this]
    exact h
  · rw [if_neg hany, List.map_append]
    have hnotmem : r.id ∉ acc.map (fun c => c.id) := by
      intro hmem
      rcases List.mem_map.mp hmem with ⟨x, hx, hxeq⟩
      exact hany (List.any_eq_true.mpr ⟨x, hx, by simp [hxeq]⟩)
    simp only [List.map_cons, List.map_nil]
    exact List.Nodup.append h (List.nodup_singleton _) (by
      intro a ha hb
      rcases List.mem_singleton.mp hb with rfl
      exact hnotmem ha)

theorem insertChunk_dominates_of_mem {acc : List RetrievedChunk} {r x : RetrievedChunk}
    (h : x ∈ acc) : ∃ c ∈ insertChunk acc r, c.id = x.id ∧ x.score ≤ c.score := by
  unfold insertChunk
  by_cases hany : acc.any (fun c => c.id = r.id)
  · rw [if_pos hany]
    refine ⟨if x.id = r.id ∧ x.score < r.score then r else x, List.mem_map_of_mem _ h, ?_⟩
    by_cases hcond : x.id = r.id ∧ x.score < r.score
    · rw [if_pos hcond]; exact ⟨hcond.1.symm, le_of_lt hcond.2⟩
    · rw [if_neg hcond]; exact ⟨rfl, le_refl _⟩
  · rw [if_neg hany]
    exact ⟨x, List.mem_append_left _ h, rfl, le_refl _⟩

theorem insertChunk_dominates_self (acc : List RetrievedChunk) (r : RetrievedChunk) :
    ∃ c ∈ insertChunk acc r, c.id = r.id ∧ r.score ≤ c.score := by
  unfold insertChunk
  by_cases hany : acc.any (fun c => c.id = r.id)
  · rw [if_pos hany]
    rcases List.any_eq_true.mp hany with ⟨x, hx, hxid⟩
    have hxid' : x.id = r.id := by simpa using hxid
    refine ⟨if x.id = r.id ∧ x.score < r.score then r else x, List.mem_map_of_mem _ hx, ?_⟩
    by_cases hcond : x.id = r.id ∧ x.score < r.score
    · rw [if_pos hcond]; exact ⟨rfl, le_refl _⟩
    · rw [if_neg hcond]
      refine ⟨hxid', ?_⟩
      rcases not_and_or.mp hcond with hbad | hscore
      · exact absurd hxid' hbad
      · exact le_of_not_lt hscore
  · rw [if_neg hany]
    exact ⟨r, List.mem_append_right _ (List.mem_singleton_self r), rfl, le_refl _⟩

theorem unionFold_mem {l : List RetrievedChunk} :
    ∀ {acc c}, c ∈ List.foldl insertChunk acc l → c ∈ acc ∨ c ∈ l := by
  induction l with
  | nil => intro acc c h; exact Or.inl h
  | cons r t ih =>
    intro acc c h
    rcases ih h with h' | h'
    · rcases insertChunk_cases h' with h'' | h''
      · exact Or.inl h''
      · exact Or.inr (h'' ▸ List.mem_cons_self r t)
    · exact Or.inr (List.mem_cons_of_mem r h')

theorem unionFold_ids_nodup {l : List RetrievedChunk} :
    ∀ {acc}, (acc.map (fun c => c.id)).Nodup →
      ((List.foldl insertChunk acc l).map (fun c => c.id)).Nodup := by
  induction l with
  | nil => intro acc h; exact h
  | cons r t ih => intro acc h; exact ih (insertChunk_ids_nodup h)

theorem unionFold_dominates_acc {l : List RetrievedChunk} :
    ∀ {acc x}, x ∈ acc →
      ∃ c ∈ List.foldl insertChunk acc l, c.id = x.id ∧ x.score ≤ c.score := by
  induction l with
  | nil => intro acc x h; exact ⟨x, h, rfl, le_refl _⟩
  | cons r t ih =>
    intro acc x h
    rcases @insertChunk_dominates_of_mem _ r _ h with ⟨a, ha, haid, hale⟩
    rcases ih ha with ⟨c, hc, hcid, hcle⟩
    exact ⟨c, hc, hcid.trans haid, le_trans hale hcle⟩

theorem unionFold_dominates_l {l : List RetrievedChunk} :
    ∀ {acc x}, x ∈ l →
      ∃ c ∈ List.foldl insertChunk acc l, c.id = x.id ∧ x.score ≤ c.score := by
  induction l with
  | nil => intro acc x h; cases h
  | cons r t ih =>
    intro acc x h
    rcases List.mem_cons.mp h with h' | h'
    · subst h'
      rcases insertChunk_dominates_self acc x with ⟨a, ha, haid, hale⟩
      rcases unionFold_dominates_acc ha with ⟨c, hc, hcid, hcle⟩
      exact ⟨c, hc, hcid.trans haid, le_trans hale hcle⟩
    · exact ih h'

theorem unionById_subset {rs : List RetrievedChunk} {c : RetrievedChunk}
    (h : c ∈ unionById rs) : c ∈ rs := by
  rcases @unionFold_mem _ [] _ h with h' | h'
  · cases h'
  · exact h'

theorem unionById_ids_nodup (rs : List RetrievedChunk) :
    ((unionById rs).map (fun c => c.id)).Nodup :=
  unionFold_ids_nodup (by simp)

theorem unionById_keeps_max {rs : List RetrievedChunk} {c : RetrievedChunk}
    (h : c ∈ unionById rs) : ∀ s ∈ rs, s.id = c.id → s.score ≤ c.score := by
  intro s hs hsid
  rcases @unionFold_dominates_l _ [] _ hs with ⟨c', hc', hc'id, hc'le⟩
  have : c' = c := by
    exact List.inj_on_of_nodup_map (unionById_ids_nodup rs) hc' h (hc'id.trans hsid)
  exact this ▸ hc'le

theorem unionById_covers {rs : List RetrievedChunk} {s : RetrievedChunk}
    (h : s ∈ rs) : ∃ c ∈ unionById rs, c.id = s.id := by
  rcases @unionFold_dominates_l _ [] _ h with ⟨c, hc, hcid, _⟩
  exact ⟨c, hc, hcid⟩

/-- C1 (amended): when a postgresql engine is configured and both store
queries succeed, hybrid_search issues both queries with limit
max(1, min(50, top_k)) (equal to min(50, top_k) whenever top_k is at
least 1), unions the two result lists by chunk id keeping the larger
score whenever an id occurs several times, and returns the union sorted
descending by score and truncated to top_k. -/
theorem hybrid_search_contract :
    ∀ (url : String) (lexQ vecQ : Nat → Except String (List RetrievedChunk))
      (top_k : Nat) (lex vec : List RetrievedChunk),
      pyStartsWith "postgresql" url = true →
      lexQ (k_each top_k) = Except.ok lex →
      vecQ (k_each top_k) = Except.ok vec →
      (1 ≤ top_k → k_each top_k = min 50 top_k) ∧
      ∃ out, hybrid_search (some url) lexQ vecQ top_k = Except.ok out ∧
        out = (sortByScoreDesc (unionById (lex ++ vec))).take top_k ∧
        out.length ≤ top_k ∧
        out.Sorted (fun a b => b.score ≤ a.score) ∧
        (out.map (fun c => c.id)).Nodup ∧
        (∀ r ∈ out, r ∈ lex ++ vec ∧
          ∀ s ∈ lex ++ vec, s.id = r.id → s.score ≤ r.score) := by
  intro url lexQ vecQ top_k lex vec hurl hlex hvec
  constructor
  · intro h1
    unfold k_each
    omega
  · refine ⟨(sortByScoreDesc (unionById (lex ++ vec))).take top_k, ?_, rfl, ?_, ?_, ?_, ?_⟩
    · simp [hybrid_search, hurl, hlex, hvec]
    · rw [List.length_take]
      exact min_le_left _ _
    · haveI : IsTotal RetrievedChunk (fun a b : RetrievedChunk => b.score ≤ a.score) :=
        ⟨fun a b => le_total _ _⟩
      haveI : IsTrans RetrievedChunk (fun a b : RetrievedChunk => b.score ≤ a.score) :=
        ⟨fun _ _ _ h1 h2 => le_trans h2 h1⟩
      exact (List.sorted_insertionSort _ _).sublist (List.take_sublist _ _)
    · have hperm : (sortByScoreDesc (unionById (lex ++ vec))).Perm (unionById (lex ++ vec)) :=
        List.perm_insertionSort _ _
      have hnodup : ((sortByScoreDesc (unionById (lex ++ vec))).map (fun c => c.id)).Nodup :=
        ((hperm.map (fun c => c.id)).nodup_iff).mpr (unionById_ids_nodup _)
      rw [List.map_take]
      exact hnodup.sublist (List.take_sublist _ _)
    · intro r hr
      have hr' : r ∈ unionById (lex ++ vec) :=
        (List.perm_insertionSort _ _).subset (List.take_subset _ _ hr)
      exact ⟨unionById_subset hr', unionById_keeps_max hr'⟩

/-- Witness for C1 at concrete inputs: a postgresql engine with singleton
lexical and vector results sharing the id, lexical score 9/10 and vector
score 3/10; the contract applies and the returned chunk keeps score 9/10. -/
theorem hybrid_search_contract_witness :
    (1 ≤ 12 → k_each 12 = min 50 12) ∧
    ∃ out, hybrid_search (some "postgresql://db")
        (fun _ => Except.ok [lexWitnessChunk])
        (fun _ => Except.ok [vecWitnessChunk]) 12 = Except.ok out ∧
      out = (sortByScoreDesc (unionById ([lexWitnessChunk] ++ [vecWitnessChunk]))).take 12 ∧
      out.length ≤ 12 ∧
      out.Sorted (fun a b => b.score ≤ a.score) ∧
      (out.map (fun c => c.id)).Nodup ∧
      (∀ r ∈ out, r ∈ [lexWitnessChunk] ++ [vecWitnessChunk] ∧
        ∀ s ∈ [lexWitnessChunk] ++ [vecWitnessChunk], s.id = r.id → s.score ≤ r.score) :=
  hybrid_search_contract "postgresql://db"
    (fun _ => Except.ok [lexWitnessChunk]) (fun _ => Except.ok [vecWitnessChunk])
    12 [lexWitnessChunk] [vecWitnessChunk] (by decide) rfl rfl

/-- C1 (counterexample): the per-query cap is max(1, min(50, top_k)), not
min(50, top_k): at top_k = 0 the source issues the queries with limit 1,
observable through a store that distinguishes the two limits. -/
theorem hybrid_search_cap_counterexample :
    k_each 0 ≠ min 50 0 ∧
    hybrid_search (some "postgresql://db")
      (fun n => if n = 0 then Except.ok [] else Except.error "limit one was issued")
      (fun _ => Except.ok []) 0 = Except.error "limit one was issued" := by
  constructor
  · decide
  · rfl

/-- C4 (amended): hybrid_search returns ok-empty when no engine or a
non-postgresql engine is configured, degrades to lexical-only results
when the vector query raises, but propagates a lexical-query exception
to its caller. -/
theorem hybrid_search_degradation :
    ∀ (lexQ vecQ : Nat → Except String (List RetrievedChunk)) (top_k : Nat)
      (url : String) (lex : List RetrievedChunk) (e : String),
      (hybrid_search none lexQ vecQ top_k = Except.ok []) ∧
      (pyStartsWith "postgresql" url = false →
        hybrid_search (some url) lexQ vecQ top_k = Except.ok []) ∧
      (pyStartsWith "postgresql" url = true →
        lexQ (k_each top_k) = Except.ok lex →
        vecQ (k_each top_k) = Except.error e →
        hybrid_search (some url) lexQ vecQ top_k =
          Except.ok ((sortByScoreDesc (unionById lex)).take top_k)) ∧
      (pyStartsWith "postgresql" url = true →
        lexQ (k_each top_k) = Except.error e →
        hybrid_search (some url) lexQ vecQ top_k = Except.error e) := by
  intro lexQ vecQ top_k url lex e
  refine ⟨rfl, ?_, ?_, ?_⟩
  · intro h
    simp [hybrid_search, h]
  · intro hurl hlex hvec
    simp [hybrid_search, hurl, hlex, hvec]
  · intro hurl hlex
    simp [hybrid_search, hurl, hlex]

/-- Witness for C4 at concrete inputs, discharging each branch premise. -/
theorem hybrid_search_degradation_witness :
    (hybrid_search none (fun _ => Except.error "x") (fun _ => Except.error "x") 5 =
      Except.ok []) ∧
    (hybrid_search (some "sqlite:///f.db") (fun _ => Except.error "x")
      (fun _ => Except.error "x") 5 = Except.ok []) ∧
    (hybrid_search (some "postgresql://db") (fun _ => Except.ok [])
      (fun _ => Except.error "vector down") 5 =
      Except.ok ((sortByScoreDesc (unionById [])).take 5)) ∧
    (hybrid_search (some "postgresql://db") (fun _ => Except.error "lexical down")
      (fun _ => Except.error "lexical down") 5 = Except.error "lexical down") := by
  have h := hybrid_search_degradation (fun _ => Except.error "x")
    (fun _ => Except.error "x") 5 "sqlite:///f.db" [] "x"
  have h2 := hybrid_search_degradation (fun _ => Except.ok [])
    (fun _ => Except.error "vector down") 5 "postgresql://db" [] "vector down"
  have h3 := hybrid_search_degradation (fun _ => Except.error "lexical down")
    (fun _ => Except.error "lexical down") 5 "postgresql://db" [] "lexical down"
  exact ⟨h.1, h.2.1 (by decide), h2.2.2.1 (by decide) rfl rfl,
    h3.2.2.2 (by decide) rfl⟩

/-- C4 (counterexample): a lexical-query exception escapes hybrid_search
unhandled, so a retrieval failure is not indistinguishable from an empty
result at this function's boundary. -/
theorem hybrid_search_lexical_error_escapes :
    hybrid_search (some "postgresql://db") (fun _ => Except.error "db down")
      (fun _ => Except.error "db down") 12 = Except.error "db down" := rfl

/-- C6 (amended): the retry policy of _fetch_with_retries. Statuses 429
and 503 back off by 0.5 * 2 ** (attempt - 1) and push any parsed
Retry-After value into the rate limiter; other 5xx statuses back off the
same way without a push; network-level exceptions back off the same way
and record the error; any other non-2xx status returns immediately with
no further attempt; 2xx returns the body; and exhausting max_attempts
(default 3) returns status 0 with error "max_retries_exceeded" when
every attempt was a retryable status, while a run whose last recorded
error came from an exception returns that exception's error string
instead. -/
theorem fetch_with_retries_policy :
    (∀ (out : Nat → AttemptOutcome) (fuel attempt : Nat) (err fUrl : Option String)
       (sleeps pushes : List ℚ) (s : Nat) (ra : Option (Option ℚ)) (b u : String),
      out (attempt + 1) = AttemptOutcome.response s ra b u → (s = 429 ∨ s = 503) →
      fetchLoop out (fuel + 1) attempt err fUrl sleeps pushes =
        fetchLoop out fuel (attempt + 1) err (some u)
          (sleeps ++ [backoffDelay (attempt + 1)])
          (pushes ++ match ra with | none => [] | some dOpt => [dOpt.getD 0])) ∧
    (∀ (out : Nat → AttemptOutcome) (fuel attempt : Nat) (err fUrl : Option String)
       (sleeps pushes : List ℚ) (s : Nat) (ra : Option (Option ℚ)) (b u : String),
      out (attempt + 1) = AttemptOutcome.response s ra b u →
      ¬(s = 429 ∨ s = 503) → 500 ≤ s → s < 600 →
      fetchLoop out (fuel + 1) attempt err fUrl sleeps pushes =
        fetchLoop out fuel (attempt + 1) err (some u)
          (sleeps ++ [backoffDelay (attempt + 1)]) pushes) ∧
    (∀ (out : Nat → AttemptOutcome) (fuel attempt : Nat) (err fUrl : Option String)
       (sleeps pushes : List ℚ) (n : String),
      out (attempt + 1) = AttemptOutcome.requestError n →
      fetchLoop out (fuel + 1) attempt err fUrl sleeps pushes =
        fetchLoop out fuel (attempt + 1) (some ("request_error: " ++ n)) fUrl
          (sleeps ++ [backoffDelay (attempt + 1)]) pushes) ∧
    (∀ (out : Nat → AttemptOutcome) (maxA : Nat) (s : Nat) (ra : Option (Option ℚ)) (b u : String),
      out 1 = AttemptOutcome.response s ra b u →
      ¬(s = 429 ∨ s = 503) → ¬(200 ≤ s ∧ s < 300) → ¬(500 ≤ s ∧ s < 600) →
      fetch_with_retries out (maxA + 1) =
        (⟨s, some u, none, some ("http_status_" ++ toString s)⟩, ⟨[], []⟩)) ∧
    (∀ (out : Nat → AttemptOutcome) (maxA : Nat) (s : Nat) (ra : Option (Option ℚ)) (b u : String),
      out 1 = AttemptOutcome.response s ra b u → 200 ≤ s → s < 300 →
      fetch_with_retries out (maxA + 1) = (⟨s, some u, some b, none⟩, ⟨[], []⟩)) ∧
    (∀ (out : Nat → AttemptOutcome) (d : ℚ) (b u : String),
      (∀ i, out i = AttemptOutcome.response 429 (some (some d)) b u) →
      fetch_with_retries out 3 =
        (⟨0, some u, none, some "max_retries_exceeded"⟩,
         ⟨[backoffDelay 1, backoffDelay 2, backoffDelay 3], [d, d, d]⟩)) ∧
    (backoffDelay 1 = 0.5 ∧ backoffDelay 2 = 1 ∧ backoffDelay 3 = 2) := by
  refine ⟨?_, ?_, ?_, ?_, ?_, ?_, ?_, ?_, ?_⟩
  · intro out fuel attempt err fUrl sleeps pushes s ra b u hout hs
    simp only [fetchLoop, hout, if_pos hs]
  · intro out fuel attempt err fUrl sleeps pushes s ra b u hout hs h5 h6
    have h2 : ¬(200 ≤ s ∧ s < 300) := by omega
    simp only [fetchLoop, hout, if_neg hs, if_neg h2, if_pos (And.intro h5 h6)]
  · intro out fuel attempt err fUrl sleeps pushes n hout
    simp only [fetchLoop, hout]
  · intro out maxA s ra b u hout hs h2 h5
    show fetchLoop out (maxA + 1) 0 none none [] [] = _
    simp only [fetchLoop, Nat.zero_add, hout, if_neg hs, if_neg h2, if_neg h5]
  · intro out maxA s ra b u hout h2 h3
    have hs : ¬(s = 429 ∨ s = 503) := by omega
    show fetchLoop out (maxA + 1) 0 none none [] [] = _
    simp only [fetchLoop, Nat.zero_add, hout, if_neg hs, if_pos (And.intro h2 h3)]
  · intro out d b u hall
    show fetchLoop out 3 0 none none [] [] = _
    have h429 : ∀ s429 : Nat, s429 = 429 → (s429 = 429 ∨ s429 = 503) := by omega
    simp only [fetchLoop, Nat.zero_add, hall 1, hall 2, hall 3,
      if_pos (h429 429 rfl)]
    rfl
  · norm_num [backoffDelay]
  · norm_num [backoffDelay]
  · norm_num [backoffDelay]

/-- Witness for C6 at concrete inputs: a 404 returns immediately without
sleeping, a 200 succeeds, and three 429 responses with Retry-After 2
exhaust the three attempts with doubling backoff and three pushes. -/
theorem fetch_with_retries_policy_witness :
    fetch_with_retries (fun _ => AttemptOutcome.response 404 none "nf" "u") 3 =
      (⟨404, some "u", none, some ("http_status_" ++ toString 404)⟩, ⟨[], []⟩) ∧
    fetch_with_retries (fun _ => AttemptOutcome.response 200 none "body" "u") 3 =
      (⟨200, some "u", some "body", none⟩, ⟨[], []⟩) ∧
    fetch_with_retries (fun _ => AttemptOutcome.response 429 (some (some 2)) "" "u") 3 =
      (⟨0, some "u", none, some "max_retries_exceeded"⟩,
       ⟨[backoffDelay 1, backoffDelay 2, backoffDelay 3], [2, 2, 2]⟩) := by
  refine ⟨?_, ?_, ?_⟩
  · exact fetch_with_retries_policy.2.2.2.1
      (fun _ => AttemptOutcome.response 404 none "nf" "u") 2 404 none "nf" "u" rfl
      (by omega) (by omega) (by omega)
  · exact fetch_with_retries_policy.2.2.2.2.1
      (fun _ => AttemptOutcome.response 200 none "body" "u") 2 200 none "body" "u" rfl
      (by omega) (by omega)
  · exact fetch_with_retries_policy.2.2.2.2.2.1
      (fun _ => AttemptOutcome.response 429 (some (some 2)) "" "u") 2 "" "u"
      (fun _ => rfl)

/-- C6 (counterexample): exhausting max_attempts does not always yield
error "max_retries_exceeded": when the attempts failed with network-level
exceptions, the recorded exception string is returned instead (status 0
as claimed). -/
theorem fetch_exhaustion_error_counterexample :
    fetch_with_retries (fun _ => AttemptOutcome.requestError "ConnectTimeout") 3 =
      (⟨0, none, none, some "request_error: ConnectTimeout"⟩,
       ⟨[backoffDelay 1, backoffDelay 2, backoffDelay 3], []⟩) ∧
    ("request_error: ConnectTimeout" ≠ "max_retries_exceeded") := by
  exact ⟨rfl, by decide⟩

/-! ## Helper lemmas: the extractor strategy chain never raises -/

theorem extractLastResort_ok (env : ExtractEnv) (md : Option String) (title : String) :
    ∃ p, extractLastResort env md title = Except.ok p := by
  cases md with
  | some s => exact ⟨_, rfl⟩
  | none => exact ⟨_, rfl⟩

theorem extractFallback_ok (env : ExtractEnv) (md : Option String) (title : String) :
    ∃ p, extractFallback env md title = Except.ok p := by
  unfold extractFallback
  cases env.docTitle with
  | error e => exact extractLastResort_ok env md title
  | ok t =>
    cases env.docMd with
    | error e => exact extractLastResort_ok env md _
    | ok m => exact ⟨_, rfl⟩

/-- C9: extract_markdown never raises for any input (any behavior of the
underlying extractors on the given html string): it always returns an
ok pair of strings, the all-extractors-fail case degrades to empty
markdown with empty title, and a primary failure degrades to the
readability fallback result. -/
theorem extract_markdown_never_raises :
    (∀ env : ExtractEnv, ∃ md title, extract_markdown env = Except.ok (md, title)) ∧
    extract_markdown ⟨Except.error (), Except.error (), Except.error (),
      Except.error (), Except.error ()⟩ = Except.ok ("", "") ∧
    (∀ (env : ExtractEnv) (m t : String),
      env.trafMd = Except.error () → env.docTitle = Except.ok t →
      env.docMd = Except.ok m →
      extract_markdown env =
        Except.ok (_postprocess_markdown m, if t = "" then "" else t)) := by
  refine ⟨?_, rfl, ?_⟩
  · intro env
    obtain ⟨tm, tt, dt, dm, st⟩ := env
    cases tm with
    | error e =>
      rcases extractFallback_ok ⟨Except.error e, tt, dt, dm, st⟩ none "" with ⟨⟨md, title⟩, hp⟩
      exact ⟨md, title, hp⟩
    | ok md0 =>
      by_cases h : md0.getD "" = ""
      · rcases extractFallback_ok ⟨Except.ok md0, tt, dt, dm, st⟩ md0
          (match tt with | Except.error _ => "" | Except.ok t0 => t0.getD "")
          with ⟨⟨md, title⟩, hp⟩
        refine ⟨md, title, ?_⟩
        show (if md0.getD "" = "" then _ else _) = _
        rw [if_pos h]
        exact hp
      · refine ⟨_postprocess_markdown (md0.getD ""),
          (match tt with | Except.error _ => "" | Except.ok t0 => t0.getD ""), ?_⟩
        show (if md0.getD "" = "" then _ else _) = _
        rw [if_neg h]
  · intro env m t htm hdt hdm
    obtain ⟨tm, tt, dt, dm, st⟩ := env
    cases htm
    show extractFallback _ none "" = _
    unfold extractFallback
    cases hdt
    cases hdm
    rfl

/-- Witness for C9 at a concrete environment: the primary extractor
raises, the readability fallback succeeds, and the fallback result is
returned. -/
theorem extract_markdown_never_raises_witness :
    extract_markdown ⟨Except.error (), Except.ok none, Except.ok "Doc Title",
      Except.ok "body text", Except.error ()⟩ =
      Except.ok (_postprocess_markdown "body text",
        if "Doc Title" = "" then "" else "Doc Title") :=
  extract_markdown_never_raises.2.2 _ "body text" "Doc Title" rfl rfl rfl

/-! ## Helper lemmas: breakAt -/

theorem breakAt_not_mem {ch : Char} {l : List Char} (h : ch ∉ l) :
    breakAt ch l = (l, none) := by
  induction l with
  | nil => rfl
  | cons c cs ih =>
    have hc : ¬ c = ch := fun he => h (he ▸ List.mem_cons_self c cs)
    have hcs : ch ∉ cs := fun hm => h (List.mem_cons_of_mem c hm)
    simp only [breakAt, if_neg hc, List.append_eq, ih hcs]

theorem breakAt_append {ch : Char} {a b : List Char} (h : ch ∉ a) :
    breakAt ch (a ++ ch :: b) = (a, some b) := by
  induction a with
  | nil => simp [breakAt]
  | cons c cs ih =>
    have hc : ¬ c = ch := fun he => h (he ▸ List.mem_cons_self c cs)
    have hcs : ch ∉ cs := fun hm => h (List.mem_cons_of_mem c hm)
    simp only [List.cons_append, breakAt, if_neg hc, List.append_eq, ih hcs]

theorem breakAt_none_eq {ch : Char} {l pre : List Char}
    (h : breakAt ch l = (pre, none)) : pre = l ∧ ch ∉ l := by
  induction l generalizing pre with
  | nil =>
    simp only [breakAt, Prod.mk.injEq] at h
    exact ⟨h.1.symm, List.not_mem_nil ch⟩
  | cons c cs ih =>
    by_cases hc : c = ch
    · simp [breakAt, if_pos hc] at h
    · simp only [breakAt, if_neg hc] at h
      rcases hrec : breakAt ch cs with ⟨pre2, post2⟩
      rw [hrec] at h
      cases post2 with
      | some p => simp at h
      | none =>
        simp only [Prod.mk.injEq] at h
        rcases ih hrec with ⟨h1, h2⟩
        refine ⟨?_, ?_⟩
        · rw [← h.1, h1]
        · intro hm
          rcases List.mem_cons.mp hm with he | hm2
          · exact hc he.symm
          · exact h2 hm2

theorem breakAt_some_eq {ch : Char} {l pre post : List Char}
    (h : breakAt ch l = (pre, some post)) : l = pre ++ ch :: post ∧ ch ∉ pre := by
  induction l generalizing pre with
  | nil => simp [breakAt] at h
  | cons c cs ih =>
    by_cases hc : c = ch
    · simp only [breakAt, if_pos hc, Prod.mk.injEq, Option.some.injEq] at h
      subst hc
      rw [← h.1, ← h.2]
      exact ⟨rfl, List.not_mem_nil _⟩
    · simp only [breakAt, if_neg hc] at h
      rcases hrec : breakAt ch cs with ⟨pre2, post2⟩
      rw [hrec] at h
      cases post2 with
      | none => simp at h
      | some p =>
        simp only [Prod.mk.injEq, Option.some.injEq] at h
        rcases ih (show breakAt ch cs = (pre2, some post) by rw [hrec, h.2]) with ⟨h1, h2⟩
        refine ⟨?_, ?_⟩
        · rw [← h.1, List.cons_append, ← h1]
        · intro hm
          rw [← h.1] at hm
          rcases List.mem_cons.mp hm with he | hm2
          · exact hc he.symm
          · exact h2 hm2

theorem breakAt_append_of_mem {ch : Char} {a b pre post : List Char}
    (h : breakAt ch a = (pre, some post)) :
    breakAt ch (a ++ b) = (pre, some (post ++ b)) := by
  rcases breakAt_some_eq h with ⟨h1, h2⟩
  rw [h1, List.append_assoc, List.cons_append, breakAt_append h2]

/-- Uniqueness of the first-occurrence decomposition. -/
theorem first_occurrence_unique {ch : Char} {a b a' b' : List Char}
    (h : a ++ ch :: b = a' ++ ch :: b') (ha : ch ∉ a) (ha' : ch ∉ a') :
    a = a' ∧ b = b' := by
  have := @breakAt_append ch a b ha
  rw [h, breakAt_append ha'] at this
  simp only [Prod.mk.injEq, Option.some.injEq] at this
  exact ⟨this.1.symm, this.2.symm⟩

/-! ## Helper lemmas: characters and lowercasing -/

theorem toNat_ofNat_valid {n : Nat} (h : Nat.isValidChar n) :
    (Char.ofNat n).toNat = n := by
  unfold Char.ofNat
  rw [dif_pos h]
  rfl

theorem pyLowerChar_toNat (c : Char) :
    (pyLowerChar c).toNat =
      if 65 ≤ c.toNat ∧ c.toNat ≤ 90 then c.toNat + 32 else c.toNat := by
  unfold pyLowerChar
  by_cases h : 65 ≤ c.toNat ∧ c.toNat ≤ 90
  · rw [if_pos h, if_pos h]
    exact toNat_ofNat_valid (Or.inl (by omega))
  · rw [if_neg h, if_neg h]

theorem pyLowerChar_idem (c : Char) : pyLowerChar (pyLowerChar c) = pyLowerChar c := by
  unfold pyLowerChar
  by_cases h : 65 ≤ c.toNat ∧ c.toNat ≤ 90
  · rw [if_pos h]
    have hv : (Char.ofNat (c.toNat + 32)).toNat = c.toNat + 32 :=
      toNat_ofNat_valid (Or.inl (by omega))
    rw [if_neg (by omega : ¬(65 ≤ (Char.ofNat (c.toNat + 32)).toNat ∧
      (Char.ofNat (c.toNat + 32)).toNat ≤ 90))]
  · rw [if_neg h, if_neg h]

theorem lowerList_idem (l : List Char) : lowerList (lowerList l) = lowerList l := by
  unfold lowerList
  rw [List.map_map]
  exact List.map_congr_left (fun c _ => pyLowerChar_idem c)

theorem isSchemeChar_pyLowerChar {c : Char} (h : isSchemeChar c = true) :
    isSchemeChar (pyLowerChar c) = true := by
  have ht := pyLowerChar_toNat c
  simp only [isSchemeChar, isAsciiAlpha, Bool.or_eq_true, decide_eq_true_eq] at h ⊢
  by_cases hc : 65 ≤ c.toNat ∧ c.toNat ≤ 90
  · rw [if_pos hc] at ht
    omega
  · rw [if_neg hc] at ht
    omega

theorem isAsciiAlpha_pyLowerChar {c : Char} (h : isAsciiAlpha c = true) :
    isAsciiAlpha (pyLowerChar c) = true := by
  have ht := pyLowerChar_toNat c
  simp only [isAsciiAlpha, Bool.or_eq_true, decide_eq_true_eq] at h ⊢
  by_cases hc : 65 ≤ c.toNat ∧ c.toNat ≤ 90
  · rw [if_pos hc] at ht
    omega
  · rw [if_neg hc] at ht
    omega

theorem isNetlocDelim_pyLowerChar {c : Char} (h : isNetlocDelim c = false) :
    isNetlocDelim (pyLowerChar c) = false := by
  have ht := pyLowerChar_toNat c
  simp only [isNetlocDelim, Bool.or_eq_false_iff, decide_eq_false_iff_not] at h ⊢
  by_cases hc : 65 ≤ c.toNat ∧ c.toNat ≤ 90
  · rw [if_pos hc] at ht
    omega
  · rw [if_neg hc] at ht
    omega

/-! ## Helper lemmas: the urlsplit stages -/

theorem splitScheme_reconstruct {s t : List Char} {c0 : Char} {cs : List Char}
    (hshape : s = c0 :: cs) (halpha : isAsciiAlpha c0 = true)
    (hchars : cs.all isSchemeChar = true) (hlower : lowerList s = s) :
    splitScheme (s ++ ':' :: t) = (s, t) := by
  have hnc : ':' ∉ s := by
    intro hm
    rw [hshape] at hm
    rcases List.mem_cons.mp hm with he | hm2
    · rw [← he] at halpha
      simp [isAsciiAlpha] at halpha
    · have := List.all_eq_true.mp hchars _ hm2
      simp [isSchemeChar, isAsciiAlpha] at this
  unfold splitScheme
  rw [breakAt_append hnc, hshape]
  dsimp only
  rw [if_pos ⟨halpha, hchars⟩, ← hshape, hlower]

theorem splitScheme_of_not_mem {y : List Char} (h : ':' ∉ y) :
    splitScheme y = ([], y) := by
  unfold splitScheme
  rw [breakAt_not_mem h]

theorem splitScheme_of_head_not_alpha {y : List Char} {c : Char}
    (hh : y.head? = some c) (ha : isAsciiAlpha c = false) :
    splitScheme y = ([], y) := by
  unfold splitScheme
  rcases hb : breakAt ':' y with ⟨pre, post⟩
  cases post with
  | none => rfl
  | some p =>
    cases pre with
    | nil => rfl
    | cons c0 cs =>
      rcases breakAt_some_eq hb with ⟨h1, _⟩
      have hc0 : c0 = c := by
        rw [h1] at hh
        simp at hh
        exact hh
      dsimp only
      rw [if_neg (by rw [hc0, ha]; simp)]

theorem splitScheme_eq_fail {y : List Char} {pre : List Char} {post : List Char}
    (hb : breakAt ':' y = (pre, some post))
    (hfail : ∀ c0 cs, pre = c0 :: cs →
      ¬(isAsciiAlpha c0 = true ∧ cs.all isSchemeChar = true)) :
    splitScheme y = ([], y) := by
  unfold splitScheme
  rw [hb]
  cases pre with
  | nil => rfl
  | cons c0 cs =>
    dsimp only
    rw [if_neg (hfail c0 cs rfl)]

theorem takeWhile_append_of_all {p : Char → Bool} {a b : List Char}
    (ha : a.all p = true) (hb : b = [] ∨ ∃ c cs, b = c :: cs ∧ p c = false) :
    (a ++ b).takeWhile p = a ∧ (a ++ b).dropWhile p = b := by
  induction a with
  | nil =>
    simp only [List.nil_append]
    rcases hb with rfl | ⟨c, cs, rfl, hc⟩
    · exact ⟨rfl, rfl⟩
    · simp [List.takeWhile, List.dropWhile, hc]
  | cons x xs ih =>
    simp only [List.all_cons, Bool.and_eq_true] at ha
    have h2 := ih ha.2
    simp [List.cons_append, List.takeWhile_cons, List.dropWhile_cons, ha.1, h2.1, h2.2]

theorem splitNetloc_reconstruct {n rest : List Char}
    (hn : n.all (fun c => !isNetlocDelim c) = true)
    (hrest : rest = [] ∨ ∃ c cs, rest = c :: cs ∧ isNetlocDelim c = true) :
    splitNetloc ('/' :: '/' :: (n ++ rest)) = (n, rest) := by
  have hrest' : rest = [] ∨ ∃ c cs, rest = c :: cs ∧ (!isNetlocDelim c) = false := by
    rcases hrest with h | ⟨c, cs, he, hc⟩
    · exact Or.inl h
    · exact Or.inr ⟨c, cs, he, by rw [hc]; rfl⟩
  have := takeWhile_append_of_all hn hrest'
  simp only [splitNetloc, this.1, this.2]

theorem splitNetloc_of_no_slashes {r : List Char} (h : r.take 2 ≠ ['/', '/']) :
    splitNetloc r = ([], r) := by
  match r with
  | [] => rfl
  | [c] => simp [splitNetloc]
  | c1 :: c2 :: rest =>
    have hne : ¬(c1 = '/' ∧ c2 = '/') := by
      intro ⟨h1, h2⟩
      exact h (by rw [h1, h2]; rfl)
    unfold splitNetloc
    split
    · rename_i heq
      exact absurd ⟨(by injection heq), (by injection heq with _ h2; injection h2)⟩ hne
    · rfl

theorem splitFragment_of_not_mem {r : List Char} (h : '#' ∉ r) :
    splitFragment r = (r, []) := by
  unfold splitFragment
  rw [breakAt_not_mem h]

theorem splitQuery_of_not_mem {p : List Char} (h : '?' ∉ p) :
    splitQuery p = (p, []) := by
  unfold splitQuery
  rw [breakAt_not_mem h]

theorem splitQuery_reconstruct {p q : List Char} (h : '?' ∉ p) :
    splitQuery (p ++ '?' :: q) = (p, q) := by
  unfold splitQuery
  rw [breakAt_append h]

/-! ## Helper lemmas: shape of urlsplit components -/

theorem char_toNat_inj {a b : Char} (h : a.toNat = b.toNat) : a = b := by
  rw [← Char.ofNat_toNat a, ← Char.ofNat_toNat b, h]

theorem isNetlocDelim_cases {c : Char} (h : isNetlocDelim c = true) :
    c = '/' ∨ c = '?' ∨ c = '#' := by
  simp only [isNetlocDelim, Bool.or_eq_true, decide_eq_true_eq] at h
  rcases h with (h | h) | h
  · exact Or.inl (char_toNat_inj (by rw [h]; rfl))
  · exact Or.inr (Or.inl (char_toNat_inj (by rw [h]; rfl)))
  · exact Or.inr (Or.inr (char_toNat_inj (by rw [h]; rfl)))

theorem splitScheme_shape (x : List Char) :
    (splitScheme x).1 = [] ∨
    (∃ c0 cs, (splitScheme x).1 = c0 :: cs ∧ isAsciiAlpha c0 = true ∧
      cs.all isSchemeChar = true ∧
      lowerList (splitScheme x).1 = (splitScheme x).1) := by
  unfold splitScheme
  rcases hb : breakAt ':' x with ⟨pre, post⟩
  cases post with
  | none => exact Or.inl rfl
  | some p =>
    cases pre with
    | nil => exact Or.inl rfl
    | cons c0 cs =>
      dsimp only
      by_cases hcond : isAsciiAlpha c0 = true ∧ cs.all isSchemeChar = true
      · rw [if_pos hcond]
        refine Or.inr ⟨pyLowerChar c0, lowerList cs, rfl, isAsciiAlpha_pyLowerChar hcond.1, ?_, ?_⟩
        · rw [List.all_eq_true]
          intro c hc
          rcases List.mem_map.mp hc with ⟨d, hd, hde⟩
          exact hde ▸ isSchemeChar_pyLowerChar (List.all_eq_true.mp hcond.2 _ hd)
        · exact lowerList_idem _
      · rw [if_neg hcond]
        exact Or.inl rfl

theorem all_takeWhile (p : Char → Bool) (l : List Char) :
    (l.takeWhile p).all p = true := by
  induction l with
  | nil => rfl
  | cons c cs ih =>
    by_cases hc : p c
    · simp [List.takeWhile_cons, hc, ih]
    · simp [List.takeWhile_cons, hc]

theorem dropWhile_shape (p : Char → Bool) (l : List Char) :
    l.dropWhile p = [] ∨ ∃ c cs, l.dropWhile p = c :: cs ∧ p c = false := by
  induction l with
  | nil => exact Or.inl rfl
  | cons c cs ih =>
    by_cases hc : p c
    · simpa [List.dropWhile_cons, hc] using ih
    · exact Or.inr ⟨c, cs, by simp [List.dropWhile_cons, hc], by simpa using hc⟩

theorem splitNetloc_no_delim (r : List Char) :
    (splitNetloc r).1.all (fun c => !isNetlocDelim c) = true := by
  unfold splitNetloc
  match r with
  | [] => rfl
  | [c] =>
    split
    · exact all_takeWhile _ _
    · rfl
  | c1 :: c2 :: rest =>
    split
    · exact all_takeWhile _ _
    · rfl

theorem splitFragment_fst_no_hash (r : List Char) : '#' ∉ (splitFragment r).1 := by
  unfold splitFragment
  rcases hb : breakAt '#' r with ⟨pre, post⟩
  cases post with
  | none => exact (breakAt_none_eq hb).1 ▸ (breakAt_none_eq hb).2
  | some p => exact (breakAt_some_eq hb).2

theorem splitQuery_fst_no_qmark (r : List Char) : '?' ∉ (splitQuery r).1 := by
  unfold splitQuery
  rcases hb : breakAt '?' r with ⟨pre, post⟩
  cases post with
  | none => exact (breakAt_none_eq hb).1 ▸ (breakAt_none_eq hb).2
  | some p => exact (breakAt_some_eq hb).2

theorem splitFragment_fst_subset {r : List Char} {c : Char}
    (h : c ∈ (splitFragment r).1) : c ∈ r := by
  unfold splitFragment at h
  rcases hb : breakAt '#' r with ⟨pre, post⟩
  rw [hb] at h
  cases post with
  | none => exact (breakAt_none_eq hb).1 ▸ h
  | some p =>
    rw [(breakAt_some_eq hb).1]
    exact List.mem_append_left _ h

theorem splitQuery_fst_subset {r : List Char} {c : Char}
    (h : c ∈ (splitQuery r).1) : c ∈ r := by
  unfold splitQuery at h
  rcases hb : breakAt '?' r with ⟨pre, post⟩
  rw [hb] at h
  cases post with
  | none => exact (breakAt_none_eq hb).1 ▸ h
  | some p =>
    rw [(breakAt_some_eq hb).1]
    exact List.mem_append_left _ h

theorem splitFragment_fst_head {r : List Char} {c : Char}
    (h : (splitFragment r).1.head? = some c) : r.head? = some c := by
  unfold splitFragment at h
  rcases hb : breakAt '#' r with ⟨pre, post⟩
  rw [hb] at h
  cases post with
  | none => exact (breakAt_none_eq hb).1 ▸ h
  | some p =>
    rw [(breakAt_some_eq hb).1]
    cases pre with
    | nil => cases h
    | cons a t => exact h

theorem splitQuery_fst_head {r : List Char} {c : Char}
    (h : (splitQuery r).1.head? = some c) : r.head? = some c := by
  unfold splitQuery at h
  rcases hb : breakAt '?' r with ⟨pre, post⟩
  rw [hb] at h
  cases post with
  | none => exact (breakAt_none_eq hb).1 ▸ h
  | some p =>
    rw [(breakAt_some_eq hb).1]
    cases pre with
    | nil => cases h
    | cons a t => exact h

theorem breakAt_cons_self (ch : Char) (t : List Char) :
    breakAt ch (ch :: t) = ([], some t) := by
  simp [breakAt]

theorem take_two_shape {A : List Char} (h : A.take 2 = ['/', '/']) :
    ∃ es, A = '/' :: '/' :: es := by
  match A with
  | [] => simp at h
  | [c] => simp at h
  | c1 :: c2 :: es =>
    refine ⟨es, ?_⟩
    have h1 : c1 = '/' := by injection h
    have h2 : c2 = '/' := by
      injection h with _ h2
      injection h2
    rw [h1, h2]

theorem urlsplit_path_head_slash {x : List Char}
    (hn : (urlsplit x).netloc ≠ []) :
    (urlsplit x).path = [] ∨ (urlsplit x).path.head? = some '/' := by
  by_cases hp : (urlsplit x).path = []
  · exact Or.inl hp
  · refine Or.inr ?_
    rcases hpc : (urlsplit x).path with _ | ⟨c, pt⟩
    · exact absurd hpc hp
    have hphead : (urlsplit x).path.head? = some c := by rw [hpc]; rfl
    have hrf1 : (splitFragment (splitNetloc (splitScheme x).2).2).1.head? = some c :=
      splitQuery_fst_head hphead
    have hr2 : ((splitNetloc (splitScheme x).2).2).head? = some c :=
      splitFragment_fst_head hrf1
    have hnet : (splitNetloc (splitScheme x).2).1 ≠ [] := hn
    by_cases hslash2 : (splitScheme x).2.take 2 = ['/', '/']
    · rcases take_two_shape hslash2 with ⟨es, hes⟩
      have hsn : splitNetloc (splitScheme x).2 =
          (es.takeWhile (fun c => !isNetlocDelim c),
           es.dropWhile (fun c => !isNetlocDelim c)) := by
        rw [hes]
        rfl
      rcases dropWhile_shape (fun c => !isNetlocDelim c) es with hnil | ⟨e, et, heq, hpe⟩
      · rw [hsn, hnil] at hr2
        cases hr2
      · rw [hsn, heq] at hr2
        have hec : e = c := by simpa using hr2
        have hdelim : isNetlocDelim c = true := by
          rw [← hec]
          simpa using hpe
        rcases isNetlocDelim_cases hdelim with hd | hd | hd
        · rw [hd]
          rfl
        · exfalso
          rcases hrf : (splitFragment (splitNetloc (splitScheme x).2).2).1 with _ | ⟨f, ft⟩
          · rw [hrf] at hrf1
            cases hrf1
          · have hfc : f = c := by
              rw [hrf] at hrf1
              simpa using hrf1
            have : (urlsplit x).path = (splitQuery (f :: ft)).1 := by
              show (splitQuery (splitFragment (splitNetloc (splitScheme x).2).2).1).1 =
                (splitQuery (f :: ft)).1
              rw [hrf]
            rw [hfc, hd] at this
            unfold splitQuery at this
            rw [breakAt_cons_self] at this
            rw [this] at hpc
            cases hpc
        · exfalso
          have : (splitFragment (splitNetloc (splitScheme x).2).2).1 = [] := by
            rw [hsn, heq, hec, hd]
            unfold splitFragment
            rw [breakAt_cons_self]
          rw [this] at hrf1
          cases hrf1
    · have := splitNetloc_of_no_slashes hslash2
      rw [this] at hnet
      exact absurd rfl hnet

/-! ## Helper lemmas: the percent codec round trip -/

theorem char_valid_ranges (c : Char) :
    c.toNat < 0xd800 ∨ (0xdfff < c.toNat ∧ c.toNat < 0x110000) := c.valid

theorem decode_step_ascii {b : Nat} (rest : List Nat) (h : b < 0x80) :
    utf8DecodeReplace (b :: rest) = Char.ofNat b :: utf8DecodeReplace rest := by
  rcases rest with _ | ⟨x, _ | ⟨y, _ | ⟨z, t⟩⟩⟩ <;>
    simp only [utf8DecodeReplace] <;> rw [if_pos h]

theorem decode_step_two {b b1 : Nat} (rest : List Nat)
    (h1 : 0xC2 ≤ b) (h2 : b < 0xE0) (h3 : 0x80 ≤ b1) (h4 : b1 < 0xC0) :
    utf8DecodeReplace (b :: b1 :: rest) =
      Char.ofNat ((b - 0xC0) * 64 + (b1 - 0x80)) :: utf8DecodeReplace rest := by
  rcases rest with _ | ⟨x, _ | ⟨y, t⟩⟩ <;>
    simp only [utf8DecodeReplace] <;>
    rw [if_neg (by omega), if_pos ⟨h1, h2⟩, if_pos (show isCont b1 from ⟨h3, h4⟩)]

theorem decode_step_three {b b1 b2 : Nat} (rest : List Nat)
    (h0 : 0xE0 ≤ b) (h0' : b < 0xF0) (h3 : 0x80 ≤ b1) (h4 : b1 < 0xC0)
    (h5 : 0x80 ≤ b2) (h6 : b2 < 0xC0) (h7 : b = 0xE0 → 0xA0 ≤ b1)
    (h8 : b = 0xED → b1 < 0xA0) :
    utf8DecodeReplace (b :: b1 :: b2 :: rest) =
      Char.ofNat ((b - 0xE0) * 4096 + (b1 - 0x80) * 64 + (b2 - 0x80)) ::
        utf8DecodeReplace rest := by
  rcases rest with _ | ⟨x, t⟩ <;>
    simp only [utf8DecodeReplace] <;>
    rw [if_neg (by omega), if_neg (by omega), if_pos ⟨h0, h0'⟩,
      if_pos (show cont1ok3 b b1 from ⟨⟨h3, h4⟩, h7, h8⟩),
      if_pos (show isCont b2 from ⟨h5, h6⟩)]

theorem decode_step_four {b b1 b2 b3 : Nat} (rest : List Nat)
    (h0 : 0xF0 ≤ b) (h0' : b < 0xF5) (h3 : 0x80 ≤ b1) (h4 : b1 < 0xC0)
    (h5 : 0x80 ≤ b2) (h6 : b2 < 0xC0) (h7 : 0x80 ≤ b3) (h8 : b3 < 0xC0)
    (h9 : b = 0xF0 → 0x90 ≤ b1) (h10 : b = 0xF4 → b1 < 0x90) :
    utf8DecodeReplace (b :: b1 :: b2 :: b3 :: rest) =
      Char.ofNat ((b - 0xF0) * 262144 + (b1 - 0x80) * 4096 + (b2 - 0x80) * 64 +
        (b3 - 0x80)) :: utf8DecodeReplace rest := by
  simp only [utf8DecodeReplace]
  rw [if_neg (by omega), if_neg (by omega), if_neg (by omega), if_pos ⟨h0, h0'⟩,
    if_pos (show cont1ok4 b b1 from ⟨⟨h3, h4⟩, h9, h10⟩),
    if_pos (show isCont b2 from ⟨h5, h6⟩), if_pos (show isCont b3 from ⟨h7, h8⟩)]

theorem utf8_decode_encode (c : Char) (bs : List Nat) :
    utf8DecodeReplace (utf8Encode c.toNat ++ bs) = c :: utf8DecodeReplace bs := by
  have hval := char_valid_ranges c
  by_cases hc1 : c.toNat < 0x80
  · rw [show utf8Encode c.toNat = [c.toNat] by unfold utf8Encode; rw [if_pos hc1]]
    rw [List.cons_append, List.nil_append, decode_step_ascii bs hc1, Char.ofNat_toNat]
  · by_cases hc2 : c.toNat < 0x800
    · rw [show utf8Encode c.toNat =
          [0xC0 + c.toNat / 64, 0x80 + c.toNat % 64] by
        unfold utf8Encode; rw [if_neg hc1, if_pos hc2]]
      rw [List.cons_append, List.cons_append, List.nil_append,
        decode_step_two bs (by omega) (by omega) (by omega) (by omega)]
      congr 1
      have e : (0xC0 + c.toNat / 64 - 0xC0) * 64 + (0x80 + c.toNat % 64 - 0x80) =
          c.toNat := by
        omega
      rw [e, Char.ofNat_toNat]
    · by_cases hc3 : c.toNat < 0x10000
      · rw [show utf8Encode c.toNat =
            [0xE0 + c.toNat / 4096, 0x80 + (c.toNat / 64) % 64, 0x80 + c.toNat % 64] by
          unfold utf8Encode; rw [if_neg hc1, if_neg hc2, if_pos hc3]]
        rw [List.cons_append, List.cons_append, List.cons_append, List.nil_append,
          decode_step_three bs (by omega) (by omega) (by omega) (by omega) (by omega)
            (by omega) (by omega) (by omega)]
        congr 1
        have e : (0xE0 + c.toNat / 4096 - 0xE0) * 4096 +
            (0x80 + (c.toNat / 64) % 64 - 0x80) * 64 + (0x80 + c.toNat % 64 - 0x80) =
            c.toNat := by
          omega
        rw [e, Char.ofNat_toNat]
      · rw [show utf8Encode c.toNat =
            [0xF0 + c.toNat / 262144, 0x80 + (c.toNat / 4096) % 64,
             0x80 + (c.toNat / 64) % 64, 0x80 + c.toNat % 64] by
          unfold utf8Encode; rw [if_neg hc1, if_neg hc2, if_neg hc3]]
        rw [List.cons_append, List.cons_append, List.cons_append, List.cons_append,
          List.nil_append,
          decode_step_four bs (by omega) (by omega) (by omega) (by omega) (by omega)
            (by omega) (by omega) (by omega) (by omega) (by omega)]
        congr 1
        have e : (0xF0 + c.toNat / 262144 - 0xF0) * 262144 +
            (0x80 + (c.toNat / 4096) % 64 - 0x80) * 4096 +
            (0x80 + (c.toNat / 64) % 64 - 0x80) * 64 + (0x80 + c.toNat % 64 - 0x80) =
            c.toNat := by
          omega
        rw [e, Char.ofNat_toNat]

theorem utf8_decode_encodeAll (cs : List Char) :
    utf8DecodeReplace (cs.flatMap (fun c => utf8Encode c.toNat)) = cs := by
  induction cs with
  | nil => rfl
  | cons c t ih =>
    rw [List.flatMap_cons, utf8_decode_encode, ih]

theorem hexVal_hexDigitUpper {n : Nat} (h : n < 16) :
    hexVal? (hexDigitUpper n) = some n := by
  interval_cases n <;> decide

theorem alwaysSafe_ne_plus {c : Char} (h : alwaysSafe c = true) : c ≠ '+' := by
  intro e; subst e; exact absurd h (by decide)

theorem alwaysSafe_ne_pct {c : Char} (h : alwaysSafe c = true) : c ≠ '%' := by
  intro e; subst e; exact absurd h (by decide)

theorem hexDigitUpper_ne_plus {n : Nat} (h : n < 16) : hexDigitUpper n ≠ '+' := by
  interval_cases n <;> decide

theorem utf8Encode_lt_256 {n : Nat} (hn : n < 0x110000) :
    ∀ b ∈ utf8Encode n, b < 256 := by
  intro b hb
  unfold utf8Encode at hb
  by_cases h1 : n < 0x80
  · rw [if_pos h1] at hb
    simp only [List.mem_singleton] at hb
    omega
  · rw [if_neg h1] at hb
    by_cases h2 : n < 0x800
    · rw [if_pos h2] at hb
      simp only [List.mem_cons, List.not_mem_nil, or_false] at hb
      rcases hb with hb | hb <;> omega
    · rw [if_neg h2] at hb
      by_cases h3 : n < 0x10000
      · rw [if_pos h3] at hb
        simp only [List.mem_cons, List.not_mem_nil, or_false] at hb
        rcases hb with hb | hb | hb <;> omega
      · rw [if_neg h3] at hb
        simp only [List.mem_cons, List.not_mem_nil, or_false] at hb
        rcases hb with hb | hb | hb | hb <;> omega

theorem unquoteItems_cons_lit {c : Char} (h : c ≠ '%') (L : List Char) :
    unquoteItems (c :: L) = .lit c :: unquoteItems L := by
  rcases L with _ | ⟨x, _ | ⟨y, t⟩⟩ <;> simp only [unquoteItems] <;> rw [if_neg h]

theorem unquoteItems_pct {a b : Char} {va vb : Nat} (h1 : hexVal? a = some va)
    (h2 : hexVal? b = some vb) (L : List Char) :
    unquoteItems ('%' :: a :: b :: L) = .byte (va * 16 + vb) :: unquoteItems L := by
  simp only [unquoteItems]
  rw [if_pos trivial, h1, h2]

theorem unquoteItems_pct_run (bs : List Nat) (hb : ∀ b ∈ bs, b < 256) (L : List Char) :
    unquoteItems (bs.flatMap
        (fun b => ['%', hexDigitUpper (b / 16), hexDigitUpper (b % 16)]) ++ L) =
      bs.map UQItem.byte ++ unquoteItems L := by
  induction bs with
  | nil => simp
  | cons b t ih =>
    have hblt : b < 256 := hb b (List.mem_cons_self b t)
    have ht : ∀ x ∈ t, x < 256 := fun x hx => hb x (List.mem_cons_of_mem b hx)
    rw [List.flatMap_cons, List.append_assoc]
    show unquoteItems ('%' :: hexDigitUpper (b / 16) :: hexDigitUpper (b % 16) ::
      (t.flatMap (fun b => ['%', hexDigitUpper (b / 16), hexDigitUpper (b % 16)]) ++ L)) = _
    rw [unquoteItems_pct (hexVal_hexDigitUpper (by omega)) (hexVal_hexDigitUpper (by omega)),
      ih ht]
    have e : b / 16 * 16 + b % 16 = b := by omega
    rw [e, List.map_cons, List.cons_append]

theorem decodeItems_bytes (bs : List Nat) (I : List UQItem) (buf : List Nat) :
    decodeItems (bs.map UQItem.byte ++ I) buf = decodeItems I (buf ++ bs) := by
  induction bs generalizing buf with
  | nil => simp
  | cons b t ih =>
    rw [List.map_cons, List.cons_append]
    show decodeItems (UQItem.byte b :: (t.map UQItem.byte ++ I)) buf = _
    rw [decodeItems, ih, List.append_assoc]
    rfl

theorem tri_map_plusToSpace (bs : List Nat) (hb : ∀ b ∈ bs, b < 256) :
    (bs.flatMap (fun b => ['%', hexDigitUpper (b / 16), hexDigitUpper (b % 16)])).map
      (fun c => if c = '+' then ' ' else c) =
    bs.flatMap (fun b => ['%', hexDigitUpper (b / 16), hexDigitUpper (b % 16)]) := by
  induction bs with
  | nil => rfl
  | cons b t ih =>
    have hblt : b < 256 := hb b (List.mem_cons_self b t)
    have ht : ∀ x ∈ t, x < 256 := fun x hx => hb x (List.mem_cons_of_mem b hx)
    rw [List.flatMap_cons, List.map_append, ih ht]
    congr 1
    simp only [List.map_cons, List.map_nil]
    rw [if_neg (by decide), if_neg (hexDigitUpper_ne_plus (by omega)),
      if_neg (hexDigitUpper_ne_plus (by omega))]

theorem decode_unquote_quote (s : List Char) (cs : List Char) :
    decodeItems (unquoteItems ((quote_plus s).map (fun c => if c = '+' then ' ' else c)))
      (cs.flatMap (fun c => utf8Encode c.toNat)) = cs ++ s := by
  induction s generalizing cs with
  | nil =>
    show decodeItems (unquoteItems []) _ = _
    rw [show unquoteItems [] = [] from rfl]
    show utf8DecodeReplace _ = _
    rw [utf8_decode_encodeAll, List.append_nil]
  | cons c t ih =>
    show decodeItems (unquoteItems (((quoteChar c ++ quote_plus t)).map _)) _ = _
    rw [List.map_append]
    by_cases hsafe : alwaysSafe c = true
    · rw [show (quoteChar c).map (fun c => if c = '+' then ' ' else c) = [c] by
        unfold quoteChar
        rw [if_pos hsafe, List.map_cons, List.map_nil, if_neg (alwaysSafe_ne_plus hsafe)]]
      rw [List.cons_append, List.nil_append,
        unquoteItems_cons_lit (alwaysSafe_ne_pct hsafe), decodeItems,
        utf8_decode_encodeAll]
      have h0 := ih []
      simp only [List.flatMap_nil, List.nil_append] at h0
      rw [h0]
    · by_cases hsp : c = ' '
      · subst hsp
        rw [show (quoteChar ' ').map (fun c => if c = '+' then ' ' else c) = [' '] by
          decide]
        rw [List.cons_append, List.nil_append,
          unquoteItems_cons_lit (by decide), decodeItems, utf8_decode_encodeAll]
        have h0 := ih []
        simp only [List.flatMap_nil, List.nil_append] at h0
        rw [h0]
      · have hbytes : ∀ b ∈ utf8Encode c.toNat, b < 256 :=
          utf8Encode_lt_256 (by rcases char_valid_ranges c with h | h <;> omega)
        rw [show quoteChar c = (utf8Encode c.toNat).flatMap
            (fun b => ['%', hexDigitUpper (b / 16), hexDigitUpper (b % 16)]) by
          unfold quoteChar; rw [if_neg hsafe, if_neg hsp]]
        rw [tri_map_plusToSpace _ hbytes, unquoteItems_pct_run _ hbytes, decodeItems_bytes]
        have hflat : cs.flatMap (fun c => utf8Encode c.toNat) ++ utf8Encode c.toNat =
            (cs ++ [c]).flatMap (fun c => utf8Encode c.toNat) := by
          rw [List.flatMap_append, List.flatMap_cons, List.flatMap_nil, List.append_nil]
        rw [hflat, ih (cs ++ [c]), List.append_assoc, List.singleton_append]

theorem unquote_quote (s : List Char) : unquote_plus (quote_plus s) = s := by
  unfold unquote_plus
  have h := decode_unquote_quote s []
  simpa using h

theorem hexDigitUpper_safe {n : Nat} (h : n < 16) :
    alwaysSafe (hexDigitUpper n) = true := by
  interval_cases n <;> decide

theorem quote_plus_mem_class {s : List Char} {x : Char} (hx : x ∈ quote_plus s) :
    alwaysSafe x = true ∨ x = '+' ∨ x = '%' := by
  rcases List.mem_flatMap.mp hx with ⟨c, _, hxc⟩
  unfold quoteChar at hxc
  by_cases hsafe : alwaysSafe c = true
  · rw [if_pos hsafe] at hxc
    simp only [List.mem_singleton] at hxc
    exact Or.inl (hxc ▸ hsafe)
  · rw [if_neg hsafe] at hxc
    by_cases hsp : c = ' '
    · rw [if_pos hsp] at hxc
      simp only [List.mem_singleton] at hxc
      exact Or.inr (Or.inl hxc)
    · rw [if_neg hsp] at hxc
      rcases List.mem_flatMap.mp hxc with ⟨b, hb, hxb⟩
      have hb256 : b < 256 := utf8Encode_lt_256
        (by rcases char_valid_ranges c with h | h <;> omega) b hb
      simp only [List.mem_cons, List.not_mem_nil, or_false] at hxb
      rcases hxb with h | h | h
      · exact Or.inr (Or.inr h)
      · exact Or.inl (h ▸ hexDigitUpper_safe (by omega))
      · exact Or.inl (h ▸ hexDigitUpper_safe (by omega))

theorem quote_plus_ne_amp {s : List Char} {x : Char} (hx : x ∈ quote_plus s) :
    x ≠ '&' := by
  rcases quote_plus_mem_class hx with h | h | h
  · intro e; subst e; exact absurd h (by decide)
  · intro e; rw [e] at h; exact absurd h (by decide)
  · intro e; rw [e] at h; exact absurd h (by decide)

theorem quote_plus_ne_eq {s : List Char} {x : Char} (hx : x ∈ quote_plus s) :
    x ≠ '=' := by
  rcases quote_plus_mem_class hx with h | h | h
  · intro e; subst e; exact absurd h (by decide)
  · intro e; rw [e] at h; exact absurd h (by decide)
  · intro e; rw [e] at h; exact absurd h (by decide)

theorem quote_plus_ne_hash {s : List Char} {x : Char} (hx : x ∈ quote_plus s) :
    x ≠ '#' := by
  rcases quote_plus_mem_class hx with h | h | h
  · intro e; subst e; exact absurd h (by decide)
  · intro e; rw [e] at h; exact absurd h (by decide)
  · intro e; rw [e] at h; exact absurd h (by decide)

theorem quote_plus_ne_qmark {s : List Char} {x : Char} (hx : x ∈ quote_plus s) :
    x ≠ '?' := by
  rcases quote_plus_mem_class hx with h | h | h
  · intro e; subst e; exact absurd h (by decide)
  · intro e; rw [e] at h; exact absurd h (by decide)
  · intro e; rw [e] at h; exact absurd h (by decide)

theorem splitOnChar_no_sep {ch : Char} {l : List Char} (h : ∀ c ∈ l, c ≠ ch)
    (acc : List Char) : splitOnChar ch l acc = [acc.reverse ++ l] := by
  induction l generalizing acc with
  | nil => rw [splitOnChar, List.append_nil]
  | cons c t ih =>
    have hc : c ≠ ch := h c (List.mem_cons_self c t)
    have ht : ∀ x ∈ t, x ≠ ch := fun x hx => h x (List.mem_cons_of_mem c hx)
    rw [splitOnChar, if_neg hc, ih ht, List.reverse_cons, List.append_assoc,
      List.singleton_append]

theorem splitOnChar_append_sep {ch : Char} {l : List Char} (rest : List Char)
    (h : ∀ c ∈ l, c ≠ ch) (acc : List Char) :
    splitOnChar ch (l ++ ch :: rest) acc =
      (acc.reverse ++ l) :: splitOnChar ch rest [] := by
  induction l generalizing acc with
  | nil =>
    rw [List.nil_append, splitOnChar, if_pos rfl, List.append_nil]
  | cons c t ih =>
    have hc : c ≠ ch := h c (List.mem_cons_self c t)
    have ht : ∀ x ∈ t, x ≠ ch := fun x hx => h x (List.mem_cons_of_mem c hx)
    rw [List.cons_append, splitOnChar, if_neg hc, ih ht, List.reverse_cons,
      List.append_assoc, List.singleton_append]

theorem splitOnChar_joinAmp (segs : List (List Char))
    (h : ∀ seg ∈ segs, ∀ c ∈ seg, c ≠ '&') (hne : segs ≠ []) :
    splitOnChar '&' (joinAmp segs) [] = segs := by
  induction segs with
  | nil => exact absurd rfl hne
  | cons l rest ih =>
    cases rest with
    | nil =>
      rw [show joinAmp [l] = l from rfl,
        splitOnChar_no_sep (h l (List.mem_cons_self l [])) [], List.reverse_nil,
        List.nil_append]
    | cons l2 r2 =>
      rw [show joinAmp (l :: l2 :: r2) = l ++ '&' :: joinAmp (l2 :: r2) from rfl,
        splitOnChar_append_sep _ (h l (List.mem_cons_self l _)) [],
        ih (fun seg hs => h seg (List.mem_cons_of_mem l hs)) (by simp),
        List.reverse_nil, List.nil_append]

theorem joinAmp_cons_ne_nil (l : List Char) (rest : List (List Char)) (h : l ≠ []) :
    joinAmp (l :: rest) ≠ [] := by
  cases rest with
  | nil => exact h
  | cons r0 rr =>
    show l ++ '&' :: joinAmp (r0 :: rr) ≠ []
    simp

theorem filterMap_congr_some {α β : Type} {l : List α} {f : α → Option β} {g : α → β}
    (h : ∀ a ∈ l, f a = some (g a)) : l.filterMap f = l.map g := by
  induction l with
  | nil => rfl
  | cons a t ih =>
    rw [List.filterMap_cons, h a (List.mem_cons_self a t), List.map_cons,
      ih (fun x hx => h x (List.mem_cons_of_mem a hx))]

theorem parse_qsl_urlencode (items : List (List Char × List Char)) :
    parse_qsl (urlencode items) =
      items.map (fun kv => (unquote_plus (quote_plus kv.1),
        unquote_plus (quote_plus kv.2))) := by
  cases hi : items with
  | nil => rfl
  | cons kv0 rest0 =>
    unfold parse_qsl urlencode
    have hsegs : ∀ seg ∈ (kv0 :: rest0).map
        (fun kv => quote_plus kv.1 ++ '=' :: quote_plus kv.2), ∀ c ∈ seg, c ≠ '&' := by
      intro seg hs c hc
      rcases List.mem_map.mp hs with ⟨kv, _, hseg⟩
      rw [← hseg] at hc
      rcases List.mem_append.mp hc with h | h
      · exact quote_plus_ne_amp h
      · rcases List.mem_cons.mp h with h | h
        · subst h; decide
        · exact quote_plus_ne_amp h
    have hne0 : joinAmp ((kv0 :: rest0).map
        (fun kv => quote_plus kv.1 ++ '=' :: quote_plus kv.2)) ≠ [] := by
      rw [List.map_cons]
      exact joinAmp_cons_ne_nil _ _ (by simp)
    rw [if_neg hne0, splitOnChar_joinAmp _ hsegs (by simp)]
    have hstep : ∀ kv : List Char × List Char,
        (fun seg => if seg = ([] : List Char) then none
          else some (match breakAt '=' seg with
            | (name, some value) => (unquote_plus name, unquote_plus value)
            | (name, none) => (unquote_plus name, [])))
          ((fun kv => quote_plus kv.1 ++ '=' :: quote_plus kv.2) kv) =
        some (unquote_plus (quote_plus kv.1), unquote_plus (quote_plus kv.2)) := by
      intro kv
      have hne : quote_plus kv.1 ++ '=' :: quote_plus kv.2 ≠ [] := by simp
      have hbrk : breakAt '=' (quote_plus kv.1 ++ '=' :: quote_plus kv.2) =
          (quote_plus kv.1, some (quote_plus kv.2)) :=
        breakAt_append (fun hm => quote_plus_ne_eq hm rfl)
      simp only [if_neg hne, hbrk]
    rw [List.filterMap_map]
    exact filterMap_congr_some (fun kv _ => hstep kv)

theorem parse_qsl_urlencode_id (items : List (List Char × List Char)) :
    parse_qsl (urlencode items) = items := by
  rw [parse_qsl_urlencode]
  have h : ∀ kv : List Char × List Char,
      (unquote_plus (quote_plus kv.1), unquote_plus (quote_plus kv.2)) = kv := by
    intro kv
    rw [unquote_quote, unquote_quote]
  simp only [h, List.map_id']

/-! ## Helper lemmas: the pair ordering of normalize_url query items -/

theorem charListLt_irrefl (l : List Char) : charListLt l l = false := by
  induction l with
  | nil => rfl
  | cons a t ih => rw [charListLt, if_neg (lt_irrefl a), if_neg (lt_irrefl a)]; exact ih

theorem charListLt_cons_iff {a b : Char} {as bs : List Char} :
    charListLt (a :: as) (b :: bs) = true ↔
      a < b ∨ (a = b ∧ charListLt as bs = true) := by
  rw [charListLt]
  by_cases h1 : a < b
  · rw [if_pos h1]
    simp [h1]
  · rw [if_neg h1]
    by_cases h2 : b < a
    · rw [if_pos h2]
      constructor
      · intro h; exact absurd h (by decide)
      · rintro (h | ⟨h, _⟩)
        · exact absurd h h1
        · exact absurd (h ▸ h2) (lt_irrefl a)
    · have hab : a = b := le_antisymm (not_lt.mp h2) (not_lt.mp h1)
      rw [if_neg h2]
      simp [h1, hab]

theorem charListLt_trans {a b c : List Char} (h1 : charListLt a b = true)
    (h2 : charListLt b c = true) : charListLt a c = true := by
  induction a generalizing b c with
  | nil =>
    cases b with
    | nil => exact Bool.noConfusion h1
    | cons y ys =>
      cases c with
      | nil => exact Bool.noConfusion h2
      | cons z zs => rfl
  | cons x xs ih =>
    cases b with
    | nil => exact Bool.noConfusion h1
    | cons y ys =>
      cases c with
      | nil => exact Bool.noConfusion h2
      | cons z zs =>
        rcases charListLt_cons_iff.mp h1 with hx | ⟨hx, hr1⟩
        · rcases charListLt_cons_iff.mp h2 with hy | ⟨hy, _⟩
          · exact charListLt_cons_iff.mpr (Or.inl (lt_trans hx hy))
          · exact charListLt_cons_iff.mpr (Or.inl (hy ▸ hx))
        · rcases charListLt_cons_iff.mp h2 with hy | ⟨hy, hr2⟩
          · exact charListLt_cons_iff.mpr (Or.inl (hx ▸ hy))
          · exact charListLt_cons_iff.mpr (Or.inr ⟨hx.trans hy, ih hr1 hr2⟩)

theorem charListLt_connex {a b : List Char} (h1 : charListLt a b = false)
    (h2 : charListLt b a = false) : a = b := by
  induction a generalizing b with
  | nil =>
    cases b with
    | nil => rfl
    | cons y ys => exact Bool.noConfusion h1
  | cons x xs ih =>
    cases b with
    | nil => exact Bool.noConfusion h2
    | cons y ys =>
      have n1 : ¬(x < y ∨ (x = y ∧ charListLt xs ys = true)) := fun hc => by
        have := charListLt_cons_iff.mpr hc
        rw [h1] at this
        exact Bool.noConfusion this
      have n2 : ¬(y < x ∨ (y = x ∧ charListLt ys xs = true)) := fun hc => by
        have := charListLt_cons_iff.mpr hc
        rw [h2] at this
        exact Bool.noConfusion this
      push_neg at n1 n2
      have hxy : x = y := le_antisymm n2.1 n1.1
      have e1 : charListLt xs ys = false := by
        have := n1.2 hxy
        exact Bool.not_eq_true _ ▸ this
      have e2 : charListLt ys xs = false := by
        have := n2.2 hxy.symm
        exact Bool.not_eq_true _ ▸ this
      rw [hxy, ih e1 e2]

theorem charListLt_asymm {a b : List Char} (h1 : charListLt a b = true) :
    charListLt b a = false := by
  by_cases h2 : charListLt b a = true
  · have := charListLt_trans h1 h2
    rw [charListLt_irrefl] at this
    exact Bool.noConfusion this
  · exact Bool.not_eq_true _ ▸ h2

theorem pairLe_iff {x y : List Char × List Char} :
    pairLe x y = true ↔
      (x.1 = y.1 ∧ (charListLt x.2 y.2 = true ∨ x.2 = y.2)) ∨
      (x.1 ≠ y.1 ∧ charListLt x.1 y.1 = true) := by
  unfold pairLe
  by_cases h : x.1 = y.1
  · rw [if_pos h]
    simp [h]
  · rw [if_neg h]
    simp [h]

theorem pairLe_total (x y : List Char × List Char) :
    pairLe x y = true ∨ pairLe y x = true := by
  by_cases hk : x.1 = y.1
  · by_cases hv : charListLt x.2 y.2 = true
    · exact Or.inl (pairLe_iff.mpr (Or.inl ⟨hk, Or.inl hv⟩))
    · by_cases hv2 : charListLt y.2 x.2 = true
      · exact Or.inr (pairLe_iff.mpr (Or.inl ⟨hk.symm, Or.inl hv2⟩))
      · have : x.2 = y.2 := charListLt_connex (Bool.not_eq_true _ ▸ hv)
          (Bool.not_eq_true _ ▸ hv2)
        exact Or.inl (pairLe_iff.mpr (Or.inl ⟨hk, Or.inr this⟩))
  · by_cases hlt : charListLt x.1 y.1 = true
    · exact Or.inl (pairLe_iff.mpr (Or.inr ⟨hk, hlt⟩))
    · by_cases hlt2 : charListLt y.1 x.1 = true
      · exact Or.inr (pairLe_iff.mpr (Or.inr ⟨fun e => hk e.symm, hlt2⟩))
      · exact absurd (charListLt_connex (Bool.not_eq_true _ ▸ hlt)
          (Bool.not_eq_true _ ▸ hlt2)) hk

theorem pairLe_trans {x y z : List Char × List Char} (h1 : pairLe x y = true)
    (h2 : pairLe y z = true) : pairLe x z = true := by
  rcases pairLe_iff.mp h1 with ⟨hk1, hv1⟩ | ⟨hk1, hl1⟩
  · rcases pairLe_iff.mp h2 with ⟨hk2, hv2⟩ | ⟨hk2, hl2⟩
    · refine pairLe_iff.mpr (Or.inl ⟨hk1.trans hk2, ?_⟩)
      rcases hv1 with hv1 | hv1
      · rcases hv2 with hv2 | hv2
        · exact Or.inl (charListLt_trans hv1 hv2)
        · exact Or.inl (hv2 ▸ hv1)
      · rcases hv2 with hv2 | hv2
        · exact Or.inl (hv1 ▸ hv2)
        · exact Or.inr (hv1.trans hv2)
    · exact pairLe_iff.mpr (Or.inr ⟨fun e => hk2 (hk1.symm.trans e), hk1 ▸ hl2⟩)
  · rcases pairLe_iff.mp h2 with ⟨hk2, hv2⟩ | ⟨hk2, hl2⟩
    · exact pairLe_iff.mpr (Or.inr ⟨fun e => hk1 (e.trans hk2.symm), hk2 ▸ hl1⟩)
    · have hlt : charListLt x.1 z.1 = true := charListLt_trans hl1 hl2
      refine pairLe_iff.mpr (Or.inr ⟨fun e => ?_, hlt⟩)
      rw [e] at hlt
      rw [charListLt_irrefl] at hlt
      exact Bool.noConfusion hlt

/-! ## Helper lemmas: further urlsplit and component facts -/

theorem breakAt_cons_ne {ch c : Char} (t : List Char) (h : c ≠ ch) :
    breakAt ch (c :: t) = (c :: (breakAt ch t).1, (breakAt ch t).2) := by
  rw [breakAt, if_neg h]

theorem splitFragment_fst_head_cons {c : Char} (t : List Char) (h : c ≠ '#') :
    (splitFragment (c :: t)).1.head? = some c := by
  unfold splitFragment
  rw [breakAt_cons_ne t h]
  rcases (breakAt '#' t).2 with _ | p <;> rfl

theorem splitQuery_fst_head_cons {c : Char} (t : List Char) (h : c ≠ '?') :
    (splitQuery (c :: t)).1.head? = some c := by
  unfold splitQuery
  rw [breakAt_cons_ne t h]
  rcases (breakAt '?' t).2 with _ | p <;> rfl

theorem path_of_delim_rest {r : List Char}
    (h : r = [] ∨ ∃ c cs, r = c :: cs ∧ isNetlocDelim c = true) :
    (splitQuery (splitFragment r).1).1 = [] ∨
      (splitQuery (splitFragment r).1).1.head? = some '/' := by
  rcases h with rfl | ⟨c, cs, rfl, hc⟩
  · exact Or.inl rfl
  rcases isNetlocDelim_cases hc with rfl | rfl | rfl
  · refine Or.inr ?_
    have h1 : (splitFragment ('/' :: cs)).1.head? = some '/' :=
      splitFragment_fst_head_cons cs (by decide)
    rcases hf : (splitFragment ('/' :: cs)).1 with _ | ⟨f, ft⟩
    · rw [hf] at h1; cases h1
    · have hfc : f = '/' := by rw [hf] at h1; simpa using h1
      rw [hfc]
      exact splitQuery_fst_head_cons ft (by decide)
  · refine Or.inl ?_
    have h1 : (splitFragment ('?' :: cs)).1.head? = some '?' :=
      splitFragment_fst_head_cons cs (by decide)
    rcases hf : (splitFragment ('?' :: cs)).1 with _ | ⟨f, ft⟩
    · rfl
    · have hfc : f = '?' := by rw [hf] at h1; simpa using h1
      rw [hfc]
      unfold splitQuery
      rw [breakAt_cons_self]
  · refine Or.inl ?_
    have h1 : splitFragment ('#' :: cs) = ([], cs) := by
      unfold splitFragment
      rw [breakAt_cons_self]
    rw [h1]
    rfl

theorem splitScheme_fst_nil {x : List Char} (h : (splitScheme x).1 = []) :
    splitScheme x = ([], x) := by
  unfold splitScheme at h ⊢
  rcases hb : breakAt ':' x with ⟨pre, post⟩
  rw [hb] at h
  cases post with
  | none => rfl
  | some p =>
    cases pre with
    | nil => rfl
    | cons c0 cs =>
      dsimp only at h ⊢
      by_cases hcond : isAsciiAlpha c0 = true ∧ cs.all isSchemeChar = true
      · rw [if_pos hcond] at h
        exact absurd h (by simp [lowerList])
      · rw [if_neg hcond]

theorem breakAt_mem_some {ch : Char} {p : List Char} (h : ch ∈ p) :
    ∃ a b, breakAt ch p = (a, some b) := by
  rcases hb : breakAt ch p with ⟨a, post⟩
  cases post with
  | none => exact absurd h (breakAt_none_eq hb).2
  | some b => exact ⟨a, b, rfl⟩

theorem splitScheme_fail_ext {x p s t : List Char} (hfail : (splitScheme x).1 = [])
    (hx : x = p ++ s) (ht : ':' ∉ t) :
    splitScheme (p ++ t) = ([], p ++ t) := by
  by_cases hmem : ':' ∈ p
  · rcases breakAt_mem_some hmem with ⟨a, b, hab⟩
    rcases breakAt_some_eq hab with ⟨hp, hna⟩
    have hbx : breakAt ':' x = (a, some (b ++ s)) := by
      rw [hx, hp, List.append_assoc, List.cons_append]
      exact breakAt_append hna
    have hbt : breakAt ':' (p ++ t) = (a, some (b ++ t)) := by
      rw [hp, List.append_assoc, List.cons_append]
      exact breakAt_append hna
    cases a with
    | nil =>
      unfold splitScheme
      rw [hbt]
    | cons c0 cs =>
      have hcond : ¬(isAsciiAlpha c0 = true ∧ cs.all isSchemeChar = true) := by
        intro hc
        unfold splitScheme at hfail
        rw [hbx] at hfail
        dsimp only at hfail
        rw [if_pos hc] at hfail
        exact absurd hfail (by simp [lowerList])
      unfold splitScheme
      rw [hbt]
      dsimp only
      rw [if_neg hcond]
  · have : ':' ∉ p ++ t := by
      intro hm
      rcases List.mem_append.mp hm with hm | hm
      · exact hmem hm
      · exact ht hm
    exact splitScheme_of_not_mem this

theorem map_fixed_of_eq {f : Char → Char} {l : List Char} (h : l.map f = l) :
    ∀ c ∈ l, f c = c := by
  induction l with
  | nil => intro c hc; cases hc
  | cons a t ih =>
    rw [List.map_cons] at h
    have h1 : f a = a := (List.cons.injEq _ _ _ _ ▸ h).1
    have h2 : t.map f = t := (List.cons.injEq _ _ _ _ ▸ h).2
    intro c hc
    rcases List.mem_cons.mp hc with rfl | hc
    · exact h1
    · exact ih h2 c hc

theorem lowerList_fixed_of_mem {l : List Char} (h : ∀ c ∈ l, pyLowerChar c = c) :
    lowerList l = l := by
  unfold lowerList
  rw [List.map_congr_left h, List.map_id']

theorem breakAtLast_some_eq {ch : Char} {l pre post : List Char}
    (h : breakAtLast ch l = some (pre, post)) :
    l = pre ++ ch :: post := by
  unfold breakAtLast at h
  rcases hb : breakAt ch l.reverse with ⟨revPort, rp⟩
  rw [hb] at h
  cases rp with
  | none => cases h
  | some revHost =>
    simp only [Option.some.injEq, Prod.mk.injEq] at h
    rcases breakAt_some_eq hb with ⟨h1, _⟩
    have : l = revHost.reverse ++ ch :: revPort.reverse := by
      have := congrArg List.reverse h1
      rw [List.reverse_reverse] at this
      rw [this, List.reverse_append, List.reverse_cons, List.append_assoc,
        List.singleton_append]
    rw [this, h.1, h.2]

theorem splitNetloc_fst_ne_shape {r : List Char} (h : (splitNetloc r).1 ≠ []) :
    ∃ es, r = '/' :: '/' :: es := by
  match r with
  | [] => exact absurd rfl h
  | [c] =>
    unfold splitNetloc at h
    split at h
    · rename_i heq
      exact ⟨_, heq⟩
    · exact absurd rfl h
  | c1 :: c2 :: es =>
    unfold splitNetloc at h
    split at h
    · rename_i heq
      exact ⟨_, heq⟩
    · exact absurd rfl h

theorem stripDefaultPort_subset (s n : List Char) :
    ∀ c ∈ stripDefaultPort s n, c ∈ n := by
  intro c hc
  unfold stripDefaultPort at hc
  rcases hb : breakAtLast ':' n with _ | ⟨host, port⟩
  · rw [hb] at hc
    exact hc
  · rw [hb] at hc
    dsimp only at hc
    split at hc
    · rw [breakAtLast_some_eq hb]
      exact List.mem_append_left _ hc
    · exact hc

theorem stripDefaultPort_nil (s : List Char) : stripDefaultPort s [] = [] := by
  rfl

theorem joinAmp_mem {segs : List (List Char)} {x : Char} (hx : x ∈ joinAmp segs) :
    (∃ seg ∈ segs, x ∈ seg) ∨ x = '&' := by
  induction segs with
  | nil => cases hx
  | cons l rest ih =>
    cases rest with
    | nil => exact Or.inl ⟨l, List.mem_cons_self l [], hx⟩
    | cons l2 r2 =>
      rw [show joinAmp (l :: l2 :: r2) = l ++ '&' :: joinAmp (l2 :: r2) from rfl] at hx
      rcases List.mem_append.mp hx with h | h
      · exact Or.inl ⟨l, List.mem_cons_self l _, h⟩
      · rcases List.mem_cons.mp h with rfl | h
        · exact Or.inr rfl
        · rcases ih h with ⟨seg, hs, hxs⟩ | h
          · exact Or.inl ⟨seg, List.mem_cons_of_mem l hs, hxs⟩
          · exact Or.inr h

theorem urlencode_mem_class {items : List (List Char × List Char)} {x : Char}
    (hx : x ∈ urlencode items) :
    alwaysSafe x = true ∨ x = '+' ∨ x = '%' ∨ x = '=' ∨ x = '&' := by
  unfold urlencode at hx
  rcases joinAmp_mem hx with ⟨seg, hs, hxs⟩ | h
  · rcases List.mem_map.mp hs with ⟨kv, _, hseg⟩
    rw [← hseg] at hxs
    rcases List.mem_append.mp hxs with h | h
    · rcases quote_plus_mem_class h with h | h | h
      · exact Or.inl h
      · exact Or.inr (Or.inl h)
      · exact Or.inr (Or.inr (Or.inl h))
    · rcases List.mem_cons.mp h with rfl | h
      · exact Or.inr (Or.inr (Or.inr (Or.inl rfl)))
      · rcases quote_plus_mem_class h with h | h | h
        · exact Or.inl h
        · exact Or.inr (Or.inl h)
        · exact Or.inr (Or.inr (Or.inl h))
  · exact Or.inr (Or.inr (Or.inr (Or.inr h)))

theorem urlencode_ne_specials {items : List (List Char × List Char)} {x : Char}
    (hx : x ∈ urlencode items) : x ≠ '#' ∧ x ≠ '?' ∧ x ≠ ':' := by
  rcases urlencode_mem_class hx with h | h | h | h | h
  · refine ⟨fun e => ?_, fun e => ?_, fun e => ?_⟩ <;>
      (subst e; exact absurd h (by decide))
  all_goals subst h; exact ⟨by decide, by decide, by decide⟩

theorem splitFragment_fst_pre (r : List Char) :
    ∃ s, r = (splitFragment r).1 ++ s := by
  unfold splitFragment
  rcases hb : breakAt '#' r with ⟨pre, post⟩
  cases post with
  | none => exact ⟨[], by rw [(breakAt_none_eq hb).1, List.append_nil]⟩
  | some p => exact ⟨'#' :: p, (breakAt_some_eq hb).1⟩

theorem splitQuery_fst_pre (r : List Char) :
    ∃ s, r = (splitQuery r).1 ++ s := by
  unfold splitQuery
  rcases hb : breakAt '?' r with ⟨pre, post⟩
  cases post with
  | none => exact ⟨[], by rw [(breakAt_none_eq hb).1, List.append_nil]⟩
  | some p => exact ⟨'?' :: p, (breakAt_some_eq hb).1⟩

theorem take2_append_ne {p t : List Char} (h1 : p ≠ []) (h2 : p.take 2 ≠ ['/', '/'])
    (h3 : ∀ c, t.head? = some c → c ≠ '/') : (p ++ t).take 2 ≠ ['/', '/'] := by
  match p with
  | [a] =>
    cases t with
    | nil =>
      intro hc
      simp at hc
    | cons c ct =>
      intro hc
      have hc2 : c = '/' := by
        have : ([a] ++ c :: ct).take 2 = [a, c] := rfl
        rw [this] at hc
        injection hc with _ h2
        injection h2
      exact h3 c rfl hc2
  | a :: b :: rest =>
    intro hc
    have : ((a :: b :: rest) ++ t).take 2 = [a, b] := rfl
    rw [this] at hc
    exact h2 (by rw [show (a :: b :: rest).take 2 = [a, b] from rfl]; exact hc)

theorem urlsplit_unsplit_exact (N : SplitResult)
    (HSc : N.scheme = [] ∨ ∃ c0 cs, N.scheme = c0 :: cs ∧ isAsciiAlpha c0 = true ∧
      cs.all isSchemeChar = true ∧ lowerList N.scheme = N.scheme)
    (Hnd : N.netloc.all (fun c => !isNetlocDelim c) = true)
    (Hp1 : '#' ∉ N.path) (Hp2 : '?' ∉ N.path) (Hpne : N.path ≠ [])
    (Hq1 : '#' ∉ N.query)
    (Hf : N.fragment = [])
    (Hhead : N.netloc ≠ [] → N.path.head? = some '/')
    (HB2 : N.netloc = [] → N.path.take 2 ≠ ['/', '/'])
    (Hg2 : N.netloc = [] → N.scheme ≠ [] → N.scheme ∈ usesNetloc →
      N.path.head? = some '/')
    (Hg4 : N.scheme = [] → N.netloc = [] →
      splitScheme (N.path ++ (if N.query = [] then [] else '?' :: N.query)) =
        ([], N.path ++ (if N.query = [] then [] else '?' :: N.query))) :
    urlsplit (urlunsplit N) = N := by
  obtain ⟨s, n, p, q, f⟩ := N
  dsimp only at HSc Hnd Hp1 Hp2 Hpne Hq1 Hf Hhead HB2 Hg2 Hg4 ⊢
  subst Hf
  have hQhash : '#' ∉ (if q = [] then [] else '?' :: q) := by
    by_cases hq : q = []
    · rw [if_pos hq]; exact List.not_mem_nil _
    · rw [if_neg hq]
      intro hm
      rcases List.mem_cons.mp hm with he | hm2
      · exact absurd he (by decide)
      · exact Hq1 hm2
  have hQhead : ∀ c, (if q = [] then ([] : List Char) else '?' :: q).head? = some c →
      c ≠ '/' := by
    intro c hc
    by_cases hq : q = []
    · rw [if_pos hq] at hc; cases hc
    · rw [if_neg hq] at hc
      have h2 : c = '?' := (Option.some.inj hc).symm
      subst h2; decide
  have happend : ∀ W : List Char,
      (if q ≠ [] then W ++ '?' :: q else W) =
        W ++ (if q = [] then [] else '?' :: q) := by
    intro W
    by_cases hq : q = []
    · rw [if_neg (fun h => h hq), if_pos hq, List.append_nil]
    · rw [if_pos hq, if_neg hq]
  have hfragTail : splitFragment (p ++ (if q = [] then [] else '?' :: q)) =
      (p ++ (if q = [] then [] else '?' :: q), []) := by
    refine splitFragment_of_not_mem ?_
    intro hm
    rcases List.mem_append.mp hm with hm | hm
    · exact Hp1 hm
    · exact hQhash hm
  have hqryTail : splitQuery (p ++ (if q = [] then [] else '?' :: q)) = (p, q) := by
    by_cases hq : q = []
    · rw [if_pos hq, List.append_nil, hq]
      exact splitQuery_of_not_mem Hp2
    · rw [if_neg hq]
      exact splitQuery_reconstruct Hp2
  by_cases hbr : n ≠ [] ∨ (s ≠ [] ∧ s ∈ usesNetloc ∧ p.take 2 ≠ ['/', '/'])
  · have hhead : p.head? = some '/' := by
      rcases hbr with hn | ⟨hs, huses, _⟩
      · exact Hhead hn
      · by_cases hn : n = []
        · exact Hg2 hn hs huses
        · exact Hhead hn
    obtain ⟨pt, rfl⟩ : ∃ pt, p = '/' :: pt := by
      cases p with
      | nil => cases hhead
      | cons a t =>
        have ha : a = '/' := Option.some.inj hhead
        exact ⟨t, by rw [ha]⟩
    have hU : urlunsplit ⟨s, n, '/' :: pt, q, []⟩ =
        (if s ≠ [] then s ++ ':' :: ('/' :: '/' :: (n ++ '/' :: pt))
          else '/' :: '/' :: (n ++ '/' :: pt)) ++
          (if q = [] then [] else '?' :: q) := by
      unfold urlunsplit
      dsimp only
      rw [if_pos hbr,
        if_neg (show ¬('/' :: pt ≠ [] ∧ ('/' :: pt).take 1 ≠ ['/']) from
          fun h => h.2 rfl),
        if_neg (show ¬(([] : List Char) ≠ []) from fun h => h rfl),
        happend]
    have hsr : splitScheme
        ((if s ≠ [] then s ++ ':' :: ('/' :: '/' :: (n ++ '/' :: pt))
          else '/' :: '/' :: (n ++ '/' :: pt)) ++
          (if q = [] then [] else '?' :: q)) =
        (s, '/' :: '/' :: ((n ++ '/' :: pt) ++
          (if q = [] then [] else '?' :: q))) := by
      by_cases hs : s = []
      · subst hs
        rw [if_neg (fun h => h rfl), List.cons_append, List.cons_append]
        exact splitScheme_of_head_not_alpha rfl (by decide)
      · rcases HSc with he | ⟨c0, cs, hsc, halpha, hchars, hlower⟩
        · exact absurd he hs
        rw [if_pos hs, List.append_assoc, List.cons_append,
          splitScheme_reconstruct hsc halpha hchars hlower, List.cons_append,
          List.cons_append]
    have hnr : splitNetloc ('/' :: '/' :: ((n ++ '/' :: pt) ++
        (if q = [] then [] else '?' :: q))) =
        (n, ('/' :: pt) ++ (if q = [] then [] else '?' :: q)) := by
      rw [List.append_assoc]
      exact splitNetloc_reconstruct Hnd
        (Or.inr ⟨'/', pt ++ (if q = [] then [] else '?' :: q),
          by rw [List.cons_append], by decide⟩)
    rw [hU]
    have hopen : ∀ L : List Char, urlsplit L = ⟨(splitScheme L).1,
        (splitNetloc (splitScheme L).2).1,
        (splitQuery (splitFragment (splitNetloc (splitScheme L).2).2).1).1,
        (splitQuery (splitFragment (splitNetloc (splitScheme L).2).2).1).2,
        (splitFragment (splitNetloc (splitScheme L).2).2).2⟩ := fun L => rfl
    rw [hopen, hsr]
    dsimp only
    rw [hnr]
    dsimp only
    rw [hfragTail]
    dsimp only
    rw [hqryTail]
  · have hn : n = [] := by
      by_contra h
      exact hbr (Or.inl h)
    subst hn
    have hU : urlunsplit ⟨s, [], p, q, []⟩ =
        (if s ≠ [] then s ++ ':' :: p else p) ++
          (if q = [] then [] else '?' :: q) := by
      unfold urlunsplit
      dsimp only
      rw [if_neg hbr, if_neg (show ¬(([] : List Char) ≠ []) from fun h => h rfl),
        happend]
    have hsr : splitScheme ((if s ≠ [] then s ++ ':' :: p else p) ++
        (if q = [] then [] else '?' :: q)) =
        (s, p ++ (if q = [] then [] else '?' :: q)) := by
      by_cases hs : s = []
      · subst hs
        rw [if_neg (fun h => h rfl)]
        exact Hg4 rfl rfl
      · rcases HSc with he | ⟨c0, cs, hsc, halpha, hchars, hlower⟩
        · exact absurd he hs
        rw [if_pos hs, List.append_assoc, List.cons_append]
        exact splitScheme_reconstruct hsc halpha hchars hlower
    have hnr : splitNetloc (p ++ (if q = [] then [] else '?' :: q)) =
        ([], p ++ (if q = [] then [] else '?' :: q)) :=
      splitNetloc_of_no_slashes (take2_append_ne Hpne (HB2 rfl) hQhead)
    rw [hU]
    have hopen : ∀ L : List Char, urlsplit L = ⟨(splitScheme L).1,
        (splitNetloc (splitScheme L).2).1,
        (splitQuery (splitFragment (splitNetloc (splitScheme L).2).2).1).1,
        (splitQuery (splitFragment (splitNetloc (splitScheme L).2).2).1).2,
        (splitFragment (splitNetloc (splitScheme L).2).2).2⟩ := fun L => rfl
    rw [hopen, hsr]
    dsimp only
    rw [hnr]
    dsimp only
    rw [hfragTail]
    dsimp only
    rw [hqryTail]

theorem urlsplit_unsplit_slashfix (N : SplitResult)
    (HSc : ∃ c0 cs, N.scheme = c0 :: cs ∧ isAsciiAlpha c0 = true ∧
      cs.all isSchemeChar = true ∧ lowerList N.scheme = N.scheme)
    (hn : N.netloc = []) (huses : N.scheme ∈ usesNetloc)
    (Hpne : N.path ≠ []) (hhead : N.path.take 1 ≠ ['/'])
    (Hp1 : '#' ∉ N.path) (Hp2 : '?' ∉ N.path) (Hq1 : '#' ∉ N.query)
    (Hf : N.fragment = []) :
    urlsplit (urlunsplit N) = ⟨N.scheme, [], '/' :: N.path, N.query, []⟩ ∧
    urlunsplit ⟨N.scheme, [], '/' :: N.path, N.query, []⟩ = urlunsplit N := by
  obtain ⟨s, n, p, q, f⟩ := N
  dsimp only at HSc hn huses Hpne hhead Hp1 Hp2 Hq1 Hf ⊢
  subst hn
  subst Hf
  have htake2 : p.take 2 ≠ ['/', '/'] := by
    cases p with
    | nil => exact absurd rfl Hpne
    | cons a t =>
      have ha : a ≠ '/' := by
        intro e
        exact hhead (by rw [show (a :: t).take 1 = [a] from rfl, e])
      intro hc
      rw [show (a :: t).take 2 = a :: t.take 1 from rfl] at hc
      exact ha (by injection hc)
  have htake2' : ('/' :: p).take 2 ≠ ['/', '/'] := by
    intro hc
    rw [show ('/' :: p).take 2 = '/' :: p.take 1 from rfl] at hc
    exact hhead (by injection hc)
  have hsne : s ≠ [] := by
    rcases HSc with ⟨c0, cs, hsc, _⟩
    rw [hsc]
    simp
  have hbr1 : ([] : List Char) ≠ [] ∨ (s ≠ [] ∧ s ∈ usesNetloc ∧
      p.take 2 ≠ ['/', '/']) := Or.inr ⟨hsne, huses, htake2⟩
  have hbr2 : ([] : List Char) ≠ [] ∨ (s ≠ [] ∧ s ∈ usesNetloc ∧
      ('/' :: p).take 2 ≠ ['/', '/']) := Or.inr ⟨hsne, huses, htake2'⟩
  have happend : ∀ W : List Char,
      (if q ≠ [] then W ++ '?' :: q else W) =
        W ++ (if q = [] then [] else '?' :: q) := by
    intro W
    by_cases hq : q = []
    · rw [if_neg (fun h => h hq), if_pos hq, List.append_nil]
    · rw [if_pos hq, if_neg hq]
  have hU1 : urlunsplit ⟨s, [], p, q, []⟩ =
      (s ++ ':' :: ('/' :: '/' :: ('/' :: p))) ++
        (if q = [] then [] else '?' :: q) := by
    unfold urlunsplit
    dsimp only
    rw [if_pos hbr1, if_pos (show p ≠ [] ∧ p.take 1 ≠ ['/'] from ⟨Hpne, hhead⟩),
      if_pos hsne, if_neg (show ¬(([] : List Char) ≠ []) from fun h => h rfl),
      happend, List.nil_append]
  have hU2 : urlunsplit ⟨s, [], '/' :: p, q, []⟩ =
      (s ++ ':' :: ('/' :: '/' :: ('/' :: p))) ++
        (if q = [] then [] else '?' :: q) := by
    unfold urlunsplit
    dsimp only
    rw [if_pos hbr2,
      if_neg (show ¬('/' :: p ≠ [] ∧ ('/' :: p).take 1 ≠ ['/']) from
        fun h => h.2 rfl),
      if_pos hsne, if_neg (show ¬(([] : List Char) ≠ []) from fun h => h rfl),
      happend, List.nil_append]
  refine ⟨?_, by rw [hU1, hU2]⟩
  rw [hU1]
  rcases HSc with ⟨c0, cs, hsc, halpha, hchars, hlower⟩
  have hsr : splitScheme ((s ++ ':' :: ('/' :: '/' :: ('/' :: p))) ++
      (if q = [] then [] else '?' :: q)) =
      (s, '/' :: '/' :: (('/' :: p) ++ (if q = [] then [] else '?' :: q))) := by
    rw [List.append_assoc, List.cons_append,
      splitScheme_reconstruct hsc halpha hchars hlower, List.cons_append,
      List.cons_append]
  have hnr : splitNetloc ('/' :: '/' :: (('/' :: p) ++
      (if q = [] then [] else '?' :: q))) =
      ([], ('/' :: p) ++ (if q = [] then [] else '?' :: q)) := by
    have := @splitNetloc_reconstruct []
      (('/' :: p) ++ (if q = [] then [] else '?' :: q)) rfl
      (Or.inr ⟨'/', p ++ (if q = [] then [] else '?' :: q),
        by rw [List.cons_append], by decide⟩)
    rw [List.nil_append] at this
    exact this
  have hfragTail : splitFragment (('/' :: p) ++ (if q = [] then [] else '?' :: q)) =
      (('/' :: p) ++ (if q = [] then [] else '?' :: q), []) := by
    refine splitFragment_of_not_mem ?_
    intro hm
    rcases List.mem_append.mp hm with hm | hm
    · rcases List.mem_cons.mp hm with he | hm2
      · exact absurd he (by decide)
      · exact Hp1 hm2
    · by_cases hq : q = []
      · rw [if_pos hq] at hm; cases hm
      · rw [if_neg hq] at hm
        rcases List.mem_cons.mp hm with he | hm2
        · exact absurd he (by decide)
        · exact Hq1 hm2
  have hp2' : '?' ∉ '/' :: p := by
    intro hm
    rcases List.mem_cons.mp hm with he | hm2
    · exact absurd he (by decide)
    · exact Hp2 hm2
  have hqryTail : splitQuery (('/' :: p) ++ (if q = [] then [] else '?' :: q)) =
      ('/' :: p, q) := by
    by_cases hq : q = []
    · rw [if_pos hq, List.append_nil, hq]
      exact splitQuery_of_not_mem hp2'
    · rw [if_neg hq]
      exact splitQuery_reconstruct hp2'
  have hopen : ∀ L : List Char, urlsplit L = ⟨(splitScheme L).1,
      (splitNetloc (splitScheme L).2).1,
      (splitQuery (splitFragment (splitNetloc (splitScheme L).2).2).1).1,
      (splitQuery (splitFragment (splitNetloc (splitScheme L).2).2).1).2,
      (splitFragment (splitNetloc (splitScheme L).2).2).2⟩ := fun L => rfl
  rw [hopen, hsr]
  dsimp only
  rw [hnr]
  dsimp only
  rw [hfragTail]
  dsimp only
  rw [hqryTail]

/-! ## Helper lemmas: components of normalizeSplit -/

theorem normalizeSplit_scheme (x : List Char) :
    (normalizeSplit x).scheme = lowerList (urlsplit x).scheme := rfl

theorem normalizeSplit_netloc (x : List Char) :
    (normalizeSplit x).netloc =
      stripDefaultPort (lowerList (urlsplit x).scheme)
        (lowerList (urlsplit x).netloc) := rfl

theorem normalizeSplit_path_def (x : List Char) :
    (normalizeSplit x).path =
      (if (if (urlsplit x).path = [] then ['/'] else (urlsplit x).path) ≠ ['/'] ∧
          (if (urlsplit x).path = [] then ['/'] else (urlsplit x).path).getLast? =
            some '/'
        then (if (urlsplit x).path = [] then ['/'] else (urlsplit x).path).dropLast
        else (if (urlsplit x).path = [] then ['/'] else (urlsplit x).path)) := rfl

theorem normalizeSplit_query_def (x : List Char) :
    (normalizeSplit x).query =
      urlencode (List.insertionSort (fun a b => pairLe a b = true)
        ((parse_qsl (urlsplit x).query).filter (fun kv => keepParam kv.1))) := rfl

theorem normalizeSplit_fragment (x : List Char) :
    (normalizeSplit x).fragment = [] := rfl

theorem normalizeSplit_path_ne_nil (x : List Char) : (normalizeSplit x).path ≠ [] := by
  rw [normalizeSplit_path_def]
  have hp0ne : (if (urlsplit x).path = [] then ['/'] else (urlsplit x).path) ≠ [] := by
    by_cases h : (urlsplit x).path = []
    · rw [if_pos h]; simp
    · rw [if_neg h]; exact h
  by_cases hc : (if (urlsplit x).path = [] then ['/'] else (urlsplit x).path) ≠ ['/'] ∧
      (if (urlsplit x).path = [] then ['/'] else (urlsplit x).path).getLast? = some '/'
  · rw [if_pos hc]
    rcases hc with ⟨hne1, hlast⟩
    rcases hp : (if (urlsplit x).path = [] then ['/'] else (urlsplit x).path)
      with _ | ⟨a, _ | ⟨b, t2⟩⟩
    · exact absurd hp hp0ne
    · rw [hp] at hlast hne1
      have : a = '/' := Option.some.inj hlast
      exact absurd (by rw [this]) hne1
    · simp
  · rw [if_neg hc]
    exact hp0ne

theorem urlsplit_path_base (x : List Char) :
    (urlsplit x).path =
      (splitQuery (splitFragment (splitNetloc (splitScheme x).2).2).1).1 := rfl

theorem urlsplit_path_no_specials (x : List Char) :
    '#' ∉ (urlsplit x).path ∧ '?' ∉ (urlsplit x).path := by
  rw [urlsplit_path_base]
  refine ⟨fun hm => ?_, fun hm => ?_⟩
  · exact splitFragment_fst_no_hash _ (splitQuery_fst_subset hm)
  · exact splitQuery_fst_no_qmark _ hm

theorem normalizeSplit_path_no_specials (x : List Char) :
    '#' ∉ (normalizeSplit x).path ∧ '?' ∉ (normalizeSplit x).path := by
  rw [normalizeSplit_path_def]
  have base := urlsplit_path_no_specials x
  have hp0 : '#' ∉ (if (urlsplit x).path = [] then ['/'] else (urlsplit x).path) ∧
      '?' ∉ (if (urlsplit x).path = [] then ['/'] else (urlsplit x).path) := by
    by_cases h : (urlsplit x).path = []
    · rw [if_pos h]; exact ⟨by decide, by decide⟩
    · rw [if_neg h]; exact base
  by_cases hc : (if (urlsplit x).path = [] then ['/'] else (urlsplit x).path) ≠ ['/'] ∧
      (if (urlsplit x).path = [] then ['/'] else (urlsplit x).path).getLast? = some '/'
  · rw [if_pos hc]
    exact ⟨fun hm => hp0.1 ((List.dropLast_sublist _).subset hm),
      fun hm => hp0.2 ((List.dropLast_sublist _).subset hm)⟩
  · rw [if_neg hc]
    exact hp0

theorem normalizeSplit_path_head {x : List Char}
    (h : (urlsplit x).path = [] ∨ (urlsplit x).path.head? = some '/') :
    (normalizeSplit x).path.head? = some '/' := by
  rw [normalizeSplit_path_def]
  rcases hp : (urlsplit x).path with _ | ⟨a, t⟩
  · simp
  · rw [hp] at h
    have ha : a = '/' := by
      rcases h with h | h
      · exact absurd h (List.cons_ne_nil a t)
      · exact Option.some.inj h
    subst ha
    rw [if_neg (List.cons_ne_nil '/' t)]
    by_cases hc : ('/' :: t) ≠ ['/'] ∧ ('/' :: t).getLast? = some '/'
    · rw [if_pos hc]
      cases t with
      | nil => exact absurd rfl hc.1
      | cons b t2 => rfl
    · rw [if_neg hc]
      rfl

theorem normalizeSplit_netloc_nil {x : List Char} (h : (urlsplit x).netloc = []) :
    (normalizeSplit x).netloc = [] := by
  rw [normalizeSplit_netloc, h]
  rfl

theorem normalizeSplit_netloc_nondelim (x : List Char) :
    (normalizeSplit x).netloc.all (fun c => !isNetlocDelim c) = true := by
  rw [normalizeSplit_netloc, List.all_eq_true]
  intro c hc
  have hc2 : c ∈ lowerList (urlsplit x).netloc := stripDefaultPort_subset _ _ c hc
  rcases List.mem_map.mp hc2 with ⟨d, hd, rfl⟩
  have hdall := splitNetloc_no_delim (splitScheme x).2
  have hdn : isNetlocDelim d = false := by
    have := List.all_eq_true.mp hdall d hd
    simpa using this
  simpa using isNetlocDelim_pyLowerChar hdn

theorem normalizeSplit_scheme_eq (x : List Char) :
    (normalizeSplit x).scheme = (urlsplit x).scheme := by
  rw [normalizeSplit_scheme]
  rcases splitScheme_shape x with h | ⟨c0, cs, hsc, _, _, hl⟩
  · rw [show (urlsplit x).scheme = (splitScheme x).1 from rfl, h]
    rfl
  · rw [show (urlsplit x).scheme = (splitScheme x).1 from rfl, hl]

theorem normalizeSplit_scheme_shape (x : List Char) :
    (normalizeSplit x).scheme = [] ∨ ∃ c0 cs,
      (normalizeSplit x).scheme = c0 :: cs ∧ isAsciiAlpha c0 = true ∧
      cs.all isSchemeChar = true ∧
      lowerList (normalizeSplit x).scheme = (normalizeSplit x).scheme := by
  rw [normalizeSplit_scheme_eq]
  rcases splitScheme_shape x with h | ⟨c0, cs, hsc, ha, hcs, hl⟩
  · exact Or.inl h
  · exact Or.inr ⟨c0, cs, hsc, ha, hcs, hl⟩

theorem normalizeSplit_fixed {y : List Char} {M : SplitResult} (hM : urlsplit y = M)
    (hs : lowerList M.scheme = M.scheme)
    (hnl : lowerList M.netloc = M.netloc)
    (hnp : stripDefaultPort M.scheme M.netloc = M.netloc)
    (hpne : M.path ≠ [])
    (hpa : M.path = ['/'] ∨ M.path.getLast? ≠ some '/')
    {items : List (List Char × List Char)}
    (hq : M.query = urlencode items)
    (hsorted : List.Sorted (fun a b => pairLe a b = true) items)
    (hkeep : ∀ kv ∈ items, keepParam kv.1 = true) :
    normalizeSplit y = ⟨M.scheme, M.netloc, M.path, M.query, []⟩ := by
  have e1 : (normalizeSplit y).scheme = M.scheme := by
    rw [normalizeSplit_scheme, hM, hs]
  have e2 : (normalizeSplit y).netloc = M.netloc := by
    rw [normalizeSplit_netloc, hM, hs, hnl, hnp]
  have e3 : (normalizeSplit y).path = M.path := by
    rw [normalizeSplit_path_def, hM, if_neg hpne]
    rcases hpa with h | h
    · rw [if_neg (fun hc => hc.1 h)]
    · rw [if_neg (fun hc => h hc.2)]
  have e4 : (normalizeSplit y).query = M.query := by
    rw [normalizeSplit_query_def, hM, hq, parse_qsl_urlencode_id,
      List.filter_eq_self.mpr hkeep, hsorted.insertionSort_eq]
  have heta : normalizeSplit y = ⟨(normalizeSplit y).scheme, (normalizeSplit y).netloc,
      (normalizeSplit y).path, (normalizeSplit y).query,
      (normalizeSplit y).fragment⟩ := rfl
  rw [heta, e1, e2, e3, e4]
  rfl

theorem urlsplit_path_pre {x : List Char}
    (hcase : (splitNetloc (splitScheme x).2).1 ≠ [] ∨
      (splitScheme x).2.take 2 = ['/', '/']) :
    (urlsplit x).path = [] ∨ (urlsplit x).path.head? = some '/' := by
  have hshape : ∃ es, (splitScheme x).2 = '/' :: '/' :: es := by
    rcases hcase with h | h
    · exact splitNetloc_fst_ne_shape h
    · exact take_two_shape h
  obtain ⟨es, hes⟩ := hshape
  have hnr2 : (splitNetloc (splitScheme x).2).2 =
      es.dropWhile (fun c => !isNetlocDelim c) := by
    rw [hes]
    rfl
  have hdw := dropWhile_shape (fun c => !isNetlocDelim c) es
  rw [urlsplit_path_base, hnr2]
  refine path_of_delim_rest ?_
  rcases hdw with h | ⟨c, cs, heq, hpe⟩
  · exact Or.inl h
  · exact Or.inr ⟨c, cs, heq, by simpa using hpe⟩

theorem normalizeSplit_netloc_lower (x : List Char) :
    lowerList (normalizeSplit x).netloc = (normalizeSplit x).netloc := by
  apply lowerList_fixed_of_mem
  intro c hc
  rw [normalizeSplit_netloc] at hc
  have hc2 : c ∈ lowerList (urlsplit x).netloc := stripDefaultPort_subset _ _ c hc
  rcases List.mem_map.mp hc2 with ⟨d, _, rfl⟩
  exact pyLowerChar_idem d

theorem normalizeSplit_scheme_lower (x : List Char) :
    lowerList (normalizeSplit x).scheme = (normalizeSplit x).scheme := by
  rcases normalizeSplit_scheme_shape x with h | ⟨_, _, _, _, _, hl⟩
  · rw [h]
    rfl
  · exact hl

theorem unsplit_normalizeSplit_idem (x : List Char)
    (HA : (normalizeSplit x).path = ['/'] ∨
      (normalizeSplit x).path.getLast? ≠ some '/')
    (HB : (normalizeSplit x).netloc = [] →
      (normalizeSplit x).path.take 2 ≠ ['/', '/'])
    (HC : stripDefaultPort (normalizeSplit x).scheme (normalizeSplit x).netloc =
      (normalizeSplit x).netloc) :
    urlunsplit (normalizeSplit (urlunsplit (normalizeSplit x))) =
      urlunsplit (normalizeSplit x) := by
  haveI ht1 : IsTotal (List Char × List Char) (fun a b => pairLe a b = true) :=
    ⟨pairLe_total⟩
  haveI ht2 : IsTrans (List Char × List Char) (fun a b => pairLe a b = true) :=
    ⟨fun a b c => pairLe_trans⟩
  have hsorted := List.sorted_insertionSort (fun a b => pairLe a b = true)
    ((parse_qsl (urlsplit x).query).filter (fun kv => keepParam kv.1))
  have hkeep : ∀ kv ∈ List.insertionSort (fun a b => pairLe a b = true)
      ((parse_qsl (urlsplit x).query).filter (fun kv => keepParam kv.1)),
      keepParam kv.1 = true := by
    intro kv hkv
    have hm : kv ∈ (parse_qsl (urlsplit x).query).filter (fun kv => keepParam kv.1) :=
      (List.perm_insertionSort _ _).subset hkv
    exact (List.mem_filter.mp hm).2
  have hqdef : (normalizeSplit x).query =
      urlencode (List.insertionSort (fun a b => pairLe a b = true)
        ((parse_qsl (urlsplit x).query).filter (fun kv => keepParam kv.1))) :=
    normalizeSplit_query_def x
  have hqne : ∀ c ∈ (normalizeSplit x).query, c ≠ '#' ∧ c ≠ '?' ∧ c ≠ ':' := by
    intro c hc
    rw [hqdef] at hc
    exact urlencode_ne_specials hc
  have HSc := normalizeSplit_scheme_shape x
  have Hnd := normalizeSplit_netloc_nondelim x
  have Hps := normalizeSplit_path_no_specials x
  have Hpne := normalizeSplit_path_ne_nil x
  have Hq1 : '#' ∉ (normalizeSplit x).query := fun hm => (hqne _ hm).1 rfl
  have Hf : (normalizeSplit x).fragment = [] := rfl
  have Hhead : (normalizeSplit x).netloc ≠ [] →
      (normalizeSplit x).path.head? = some '/' := by
    intro hn
    have hPn : (urlsplit x).netloc ≠ [] := fun h => hn (normalizeSplit_netloc_nil h)
    exact normalizeSplit_path_head (urlsplit_path_pre (Or.inl hPn))
  have heta : (⟨(normalizeSplit x).scheme, (normalizeSplit x).netloc,
      (normalizeSplit x).path, (normalizeSplit x).query, []⟩ : SplitResult) =
      normalizeSplit x := rfl
  by_cases hG2b : (normalizeSplit x).netloc = [] ∧ (normalizeSplit x).scheme ≠ [] ∧
      (normalizeSplit x).scheme ∈ usesNetloc ∧
      (normalizeSplit x).path.take 1 ≠ ['/']
  · obtain ⟨hn0, hs0, huses, htake1⟩ := hG2b
    have HSc' : ∃ c0 cs, (normalizeSplit x).scheme = c0 :: cs ∧
        isAsciiAlpha c0 = true ∧ cs.all isSchemeChar = true ∧
        lowerList (normalizeSplit x).scheme = (normalizeSplit x).scheme := by
      rcases HSc with h | h
      · exact absurd h hs0
      · exact h
    have hsf := urlsplit_unsplit_slashfix (normalizeSplit x) HSc' hn0 huses
      Hpne htake1 Hps.1 Hps.2 Hq1 Hf
    have hane : (normalizeSplit x).path ≠ ['/'] := by
      intro he
      exact htake1 (by rw [he]; rfl)
    have hlast : (normalizeSplit x).path.getLast? ≠ some '/' := by
      rcases HA with h | h
      · exact absurd h hane
      · exact h
    have hfix := normalizeSplit_fixed hsf.1
      (by dsimp only; exact normalizeSplit_scheme_lower x)
      (by dsimp only; rfl)
      (by dsimp only; rfl)
      (by dsimp only; simp)
      (by
        dsimp only
        refine Or.inr ?_
        rcases hp : (normalizeSplit x).path with _ | ⟨a, t⟩
        · exact absurd hp Hpne
        · rw [List.getLast?_cons_cons]
          rw [hp] at hlast
          exact hlast)
      (by dsimp only; exact hqdef)
      hsorted hkeep
    rw [hfix]
    exact hsf.2
  · have Hg2 : (normalizeSplit x).netloc = [] → (normalizeSplit x).scheme ≠ [] →
        (normalizeSplit x).scheme ∈ usesNetloc →
        (normalizeSplit x).path.head? = some '/' := by
      intro hn hs huses
      have htake1 : (normalizeSplit x).path.take 1 = ['/'] := by
        by_contra hc
        exact hG2b ⟨hn, hs, huses, hc⟩
      rcases hp : (normalizeSplit x).path with _ | ⟨a, t⟩
      · exact absurd hp Hpne
      · rw [hp] at htake1
        have : a = '/' := by
          rw [show (a :: t).take 1 = [a] from rfl] at htake1
          injection htake1
        rw [this]
        rfl
    have Hg4 : (normalizeSplit x).scheme = [] → (normalizeSplit x).netloc = [] →
        splitScheme ((normalizeSplit x).path ++
          (if (normalizeSplit x).query = [] then []
            else '?' :: (normalizeSplit x).query)) =
        ([], (normalizeSplit x).path ++
          (if (normalizeSplit x).query = [] then []
            else '?' :: (normalizeSplit x).query)) := by
      intro hs0 hn0
      by_cases hhead : (normalizeSplit x).path.head? = some '/'
      · rcases hp : (normalizeSplit x).path with _ | ⟨a, t⟩
        · exact absurd hp Hpne
        · have ha : a = '/' := by
            rw [hp] at hhead
            exact Option.some.inj hhead
          subst ha
          exact splitScheme_of_head_not_alpha rfl (by decide)
      · have hPs : (urlsplit x).scheme = [] := by
          rw [← normalizeSplit_scheme_eq x]
          exact hs0
        have hfail : (splitScheme x).1 = [] := hPs
        have hnoslash : ¬((splitNetloc (splitScheme x).2).1 ≠ [] ∨
            (splitScheme x).2.take 2 = ['/', '/']) := by
          intro hcase
          exact hhead (normalizeSplit_path_head (urlsplit_path_pre hcase))
        push_neg at hnoslash
        have hsr2 : (splitScheme x).2 = x := by
          rw [splitScheme_fst_nil hfail]
        have hnr : splitNetloc (splitScheme x).2 = ([], (splitScheme x).2) :=
          splitNetloc_of_no_slashes hnoslash.2
        have hPpath : (urlsplit x).path =
            (splitQuery (splitFragment x).1).1 := by
          rw [urlsplit_path_base, hnr, hsr2]
        obtain ⟨s1, hx1⟩ := splitFragment_fst_pre x
        obtain ⟨s2, hx2⟩ := splitQuery_fst_pre (splitFragment x).1
        have hxpre : x = (urlsplit x).path ++ (s2 ++ s1) := by
          rw [hPpath, ← List.append_assoc, ← hx2, ← hx1]
        have hPne : (urlsplit x).path ≠ [] := by
          intro he
          have : (normalizeSplit x).path.head? = some '/' := by
            rw [normalizeSplit_path_def, if_pos he, if_neg (fun hc => hc.1 rfl)]
            rfl
          exact hhead this
        have hNpre : ∃ s, x = (normalizeSplit x).path ++ s := by
          rw [normalizeSplit_path_def, if_neg hPne]
          by_cases hc : (urlsplit x).path ≠ ['/'] ∧
              (urlsplit x).path.getLast? = some '/'
          · rw [if_pos hc]
            refine ⟨[(urlsplit x).path.getLast hPne] ++ (s2 ++ s1), ?_⟩
            rw [← List.append_assoc, List.dropLast_append_getLast hPne]
            exact hxpre
          · rw [if_neg hc]
            exact ⟨s2 ++ s1, hxpre⟩
        obtain ⟨s, hxs⟩ := hNpre
        refine splitScheme_fail_ext hfail hxs ?_
        intro hm
        by_cases hq : (normalizeSplit x).query = []
        · rw [if_pos hq] at hm
          cases hm
        · rw [if_neg hq] at hm
          rcases List.mem_cons.mp hm with he | hm2
          · exact absurd he (by decide)
          · exact (hqne _ hm2).2.2 rfl
    have hexact := urlsplit_unsplit_exact (normalizeSplit x) HSc Hnd Hps.1 Hps.2
      Hpne Hq1 Hf Hhead HB Hg2 Hg4
    have hfix := normalizeSplit_fixed hexact
      (normalizeSplit_scheme_lower x) (normalizeSplit_netloc_lower x) HC Hpne HA
      hqdef hsorted hkeep
    rw [hfix, heta]

/-! ## C8: normalize_url idempotence and tracking-parameter stripping -/

set_option maxHeartbeats 2000000 in
/-- C8 counterexample: normalize_url is not idempotent on every URL.
The source strips only one trailing slash per call, so
normalize_url("http://h/p//") = "http://h/p/" while applying
normalize_url again yields "http://h/p". -/
theorem normalize_url_idempotence_counterexample :
    normalize_url "http://h/p//" = "http://h/p/" ∧
    normalize_url "http://h/p/" = "http://h/p" ∧
    normalize_url (normalize_url "http://h/p//") ≠ normalize_url "http://h/p//" := by
  refine ⟨by decide, ?_, ?_⟩ <;> decide

set_option maxHeartbeats 4000000 in
/-- C8 (amended): normalize_url is idempotent on every URL whose
normalized form has no trailing slash outside the root path, does not
have a path starting with a double slash while the netloc is empty, and
has no residual default port in the netloc; the query filter drops
exactly the keys that start with utm_ or belong to the documented
tracker set (gclid, fbclid, msclkid, mc_cid, mc_eid); and the concrete
example of the specification holds:
normalize_url("https://EX.com:443/a/?utm_source=x&b=2#frag") =
"https://ex.com/a?b=2". -/
theorem normalize_url_contract :
    (∀ u : String,
      ((normalizeSplit u.data).path = ['/'] ∨
        (normalizeSplit u.data).path.getLast? ≠ some '/') →
      ((normalizeSplit u.data).netloc = [] →
        (normalizeSplit u.data).path.take 2 ≠ ['/', '/']) →
      (stripDefaultPort (normalizeSplit u.data).scheme
        (normalizeSplit u.data).netloc = (normalizeSplit u.data).netloc) →
      normalize_url (normalize_url u) = normalize_url u) ∧
    (∀ k : List Char, keepParam k = false ↔
      (("utm_".data).isPrefixOf k ∨ k ∈ documentedTrackers)) ∧
    normalize_url "https://EX.com:443/a/?utm_source=x&b=2#frag" =
      "https://ex.com/a?b=2" := by
  refine ⟨?_, ?_, by decide⟩
  · intro u HA HB HC
    show String.mk (urlunsplit (normalizeSplit
        (urlunsplit (normalizeSplit u.data)))) =
      String.mk (urlunsplit (normalizeSplit u.data))
    exact congrArg String.mk (unsplit_normalizeSplit_idem u.data HA HB HC)
  · intro k
    unfold keepParam
    constructor
    · intro h
      by_cases hpre : ("utm_".data).isPrefixOf k
      · exact Or.inl hpre
      · have hc : _TRACKING_PARAMS.contains k = true := by
          by_contra hc2
          rw [Bool.not_eq_true] at hc2
          rw [Bool.not_eq_true] at hpre
          rw [hc2, hpre] at h
          exact Bool.noConfusion h
        have hk : k ∈ _TRACKING_PARAMS := by simpa using hc
        simp only [_TRACKING_PARAMS, List.map_cons, List.map_nil, List.mem_cons,
          List.not_mem_nil, or_false] at hk
        rcases hk with hk | hk | hk | hk | hk | hk | hk | hk | hk | hk | hk
        all_goals subst hk
        · exact absurd (by decide) hpre
        · exact absurd (by decide) hpre
        · exact absurd (by decide) hpre
        · exact absurd (by decide) hpre
        · exact absurd (by decide) hpre
        · exact absurd (by decide) hpre
        · exact Or.inr (by decide)
        · exact Or.inr (by decide)
        · exact Or.inr (by decide)
        · exact Or.inr (by decide)
        · exact Or.inr (by decide)
    · intro h
      rcases h with h | h
      · rw [h]
        simp
      · have hk : k ∈ _TRACKING_PARAMS := by
          simp only [documentedTrackers, List.map_cons, List.map_nil, List.mem_cons,
            List.not_mem_nil, or_false] at h
          rcases h with h | h | h | h | h
          all_goals subst h
          · decide
          · decide
          · decide
          · decide
          · decide
        have hc : _TRACKING_PARAMS.contains k = true := by simpa using hk
        rw [hc]
        simp

set_option maxHeartbeats 4000000 in
/-- C8 witness: the amended idempotence applied at the specification
example, whose normalized form satisfies all three side conditions. -/
theorem normalize_url_contract_witness :
    normalize_url (normalize_url "https://EX.com:443/a/?utm_source=x&b=2#frag") =
      normalize_url "https://EX.com:443/a/?utm_source=x&b=2#frag" :=
  normalize_url_contract.1 "https://EX.com:443/a/?utm_source=x&b=2#frag"
    (by decide) (by decide) (by decide)

/-! ## Helper lemmas: the collector ledger and workers -/

theorem read_existing_meta_aux_mono (l : List FetchRecord) (acc : List String)
    {x : String} (hx : x ∈ acc) :
    x ∈ l.foldl (fun acc rec =>
      let acc1 := if rec.url ≠ "" ∧ rec.status = 200
        then acc ++ [normalize_url rec.url] else acc
      match rec.canonical_url with
      | some c => acc1 ++ [normalize_url c]
      | none => acc1) acc := by
  induction l generalizing acc with
  | nil => exact hx
  | cons r t ih =>
    apply ih
    dsimp only
    have hx1 : x ∈ (if r.url ≠ "" ∧ r.status = 200
        then acc ++ [normalize_url r.url] else acc) := by
      by_cases hc : r.url ≠ "" ∧ r.status = 200
      · rw [if_pos hc]; exact List.mem_append_left _ hx
      · rw [if_neg hc]; exact hx
    cases r.canonical_url with
    | some c => exact List.mem_append_left _ hx1
    | none => exact hx1

theorem read_existing_meta_mem {prior : List FetchRecord} {rec : FetchRecord}
    (h : rec ∈ prior) (hu : rec.url ≠ "") (hs : rec.status = 200) :
    normalize_url rec.url ∈ read_existing_meta prior := by
  unfold read_existing_meta
  suffices hgen : ∀ (l : List FetchRecord) (acc : List String), rec ∈ l →
      normalize_url rec.url ∈ l.foldl (fun acc rec =>
        let acc1 := if rec.url ≠ "" ∧ rec.status = 200
          then acc ++ [normalize_url rec.url] else acc
        match rec.canonical_url with
        | some c => acc1 ++ [normalize_url c]
        | none => acc1) acc from hgen prior [] h
  intro l
  induction l with
  | nil => intro acc hm; cases hm
  | cons r t ih =>
    intro acc hm
    rcases List.mem_cons.mp hm with rfl | hm2
    · rw [List.foldl_cons]
      apply read_existing_meta_aux_mono
      dsimp only
      have hx1 : normalize_url rec.url ∈ acc ++ [normalize_url rec.url] :=
        List.mem_append_right _ (List.mem_singleton.mpr rfl)
      rw [if_pos ⟨hu, hs⟩]
      cases rec.canonical_url with
      | some c => exact List.mem_append_left _ hx1
      | none => exact hx1
    · rw [List.foldl_cons]
      exact ih _ hm2

theorem worker_resume_skip {seenSuccess seenCanonical : List String}
    {env : PageEnv} {u : String}
    (h : seenSuccess.contains (normalize_url u) = true) :
    worker true seenSuccess seenCanonical env u = (false, [], []) := by
  unfold worker
  rw [if_pos (by rw [Bool.true_and]; exact h)]

theorem runWorkers_fetched_sub {seenSuccess : List String}
    {envs : String → PageEnv} {u : String}
    (h : seenSuccess.contains (normalize_url u) = true) :
    ∀ (urls : List String) (acc : List FetchRecord × List String × List String),
      u ∉ acc.2.2 →
      u ∉ (urls.foldl (fun acc u =>
        let w := worker true seenSuccess acc.2.1 (envs u) u
        (acc.1 ++ w.2.1, acc.2.1 ++ w.2.2, acc.2.2 ++ (if w.1 then [u] else [])))
        acc).2.2 := by
  intro urls
  induction urls with
  | nil => intro acc hacc; exact hacc
  | cons v t ih =>
    intro acc hacc
    apply ih
    dsimp only
    intro hm
    rcases List.mem_append.mp hm with hm | hm
    · exact hacc hm
    · by_cases hv : v = u
      · subst hv
        rw [worker_resume_skip h] at hm
        rw [if_neg (fun hc : false = true => Bool.noConfusion hc)] at hm
        cases hm
      · rcases hw : (worker true seenSuccess acc.2.1 (envs v) v).1 with _ | _
        · rw [hw, if_neg (fun hc : false = true => Bool.noConfusion hc)] at hm
          cases hm
        · rw [hw, if_pos rfl] at hm
          exact hv (List.mem_singleton.mp hm).symm

/-- C2: with resume enabled, no URL whose normalized form has a prior
status-200 ledger record is fetched again, and for every run the final
ledger extends the prior one by appended records only. -/
theorem collect_resume_contract :
    (∀ (prior : List FetchRecord) (envs : String → PageEnv)
      (urls : List String) (u : String),
      (∃ rec ∈ prior, rec.url ≠ "" ∧ rec.status = 200 ∧
        normalize_url rec.url = normalize_url u) →
      u ∉ (process_product true prior envs urls).2) ∧
    (∀ (resume : Bool) (prior : List FetchRecord) (envs : String → PageEnv)
      (urls : List String), ∃ t,
      (process_product resume prior envs urls).1 = prior ++ t) := by
  constructor
  · intro prior envs urls u hex
    obtain ⟨rec, hrec, hu, hs, hn⟩ := hex
    have hmem : normalize_url u ∈ read_existing_meta prior :=
      hn ▸ read_existing_meta_mem hrec hu hs
    have hcont : (read_existing_meta prior).contains (normalize_url u) = true := by
      simpa using hmem
    exact runWorkers_fetched_sub hcont urls _ (List.not_mem_nil u)
  · intro resume prior envs urls
    exact ⟨_, rfl⟩

/-- C2 witness: the contract at a concrete one-record ledger and a
single rediscovered URL. -/
theorem collect_resume_contract_witness :
    "http://h/p" ∉ (process_product true c2prior c2envs ["http://h/p"]).2 ∧
    ∃ t, (process_product false c2prior c2envs ["http://h/p"]).1 = c2prior ++ t :=
  ⟨collect_resume_contract.1 c2prior c2envs ["http://h/p"] "http://h/p"
      ⟨⟨"http://h/p", 200, none, none, "", none⟩, by decide, by decide, by decide, rfl⟩,
    collect_resume_contract.2 false c2prior c2envs ["http://h/p"]⟩

/-- C7 counterexample: a successfully fetched page that declares no
canonical is persisted even though its own URL normalizes to one already
recorded as successful: the dedup of the worker tests only a declared
canonical, never the page's own URL. -/
theorem collect_dedup_self_counterexample :
    normalize_url "http://h/p" ∈ (read_existing_meta c2prior).map normalize_url ∧
    (c2envs "http://h/p").canonical = none ∧
    (process_product false c2prior c2envs ["http://h/p"]).1 ≠ c2prior := by
  refine ⟨by decide, rfl, by decide⟩

/-- C7 (amended): the canonical dedup runs before extraction and only for
a page that declares a canonical: whenever the resume skip does not apply,
robots allow the fetch, the fetch returns 200 with a non-empty body, and
the declared canonical normalizes into the current seen_canonical set, the
worker issues the network request but appends no ledger record and adds no
canonical; a page without a declared canonical is not deduplicated (see
the counterexample). -/
theorem collect_canonical_dedup :
    ∀ (resume : Bool) (seenSuccess seenCanonical : List String) (env : PageEnv)
      (u : String),
      (resume && seenSuccess.contains (normalize_url u)) = false →
      env.robotsAllowed = true →
      env.fetchStatus = 200 →
      (∃ h, env.fetchHtml = some h ∧ h ≠ "") →
      (∃ c, env.canonical = some c ∧
        seenCanonical.contains (normalize_url c) = true) →
      worker resume seenSuccess seenCanonical env u = (true, [], []) := by
  intro resume seenSuccess seenCanonical env u hres hrob hst hhtml hcanon
  obtain ⟨h, hh, hhne⟩ := hhtml
  obtain ⟨c, hc, hcseen⟩ := hcanon
  unfold worker
  rw [if_neg (by rw [hres]; exact fun hc : false = true => Bool.noConfusion hc)]
  rw [if_neg (by rw [hrob]; exact fun hc : (!true) = true => Bool.noConfusion hc)]
  have hok : (match env.fetchHtml with
      | some h => !(h == "")
      | none => false) = true := by
    rw [hh]
    simp [hhne]
  rw [if_neg (by
    rw [hst, hok]
    intro hcond
    rcases hcond with hcond | hcond
    · exact hcond rfl
    · exact Bool.noConfusion hcond)]
  have hdupe : (match env.canonical with
      | some c => seenCanonical.contains (normalize_url c)
      | none => false) = true := by
    rw [hc]
    exact hcseen
  rw [if_pos hdupe]

/-- C7 witness: the amended dedup at concrete inputs. -/
theorem collect_canonical_dedup_witness :
    worker false [] ["http://h/x"]
      ⟨true, 200, none, some "<html>", none, some "http://h/x", "", ""⟩
      "http://h/y" = (true, [], []) :=
  collect_canonical_dedup false [] ["http://h/x"]
    ⟨true, 200, none, some "<html>", none, some "http://h/x", "", ""⟩
    "http://h/y" (by decide) rfl rfl ⟨"<html>", rfl, by decide⟩
    ⟨"http://h/x", rfl, by decide⟩
